import Mathlib

/-!
# SmartScotty: task prioritization and study-block scheduling engine

A shallow embedding, in Lean 4, of the scheduling core of the SmartScotty
repository:

* `src/agents/prioritization-agent.ts` — `calculateUrgencyWeight`,
  `calculateDifficultyWeight`, `calculateHoursWeight`, `prioritize`;
* `src/agents/study-planner-agent.ts` — `getDayName`, `getDefaultAvailability`,
  `getAvailableTimeSlots`, `generateDailyPlan`, `generateWeeklyPlan`.

Modelling conventions, chosen once and used throughout:

* JavaScript numbers are modelled as exact rationals (`ℚ`).  Every numeric
  operation the scheduling core performs is `+`, `-`, `*`, `/`, `min`, `max`,
  comparison, or `Math.round`; `Math.round x` (round half towards `+∞`) is
  exactly Mathlib's `round` (`⌊x + 1/2⌋`).
* Calendar dates are modelled as integer day numbers (days since the epoch,
  1970-01-01, which was a Thursday).  The source walks dates one day at a time
  with `setDate(getDate() + 1)` and derives the weekday with `getDay()`
  (0 = Sunday) and the date label with `toISOString()`; with a UTC host both
  are captured faithfully by the day number `d` with weekday index
  `(d + 4) % 7` and the day number itself as the date label.
* `"HH:mm"` time-of-day strings are modelled as minutes since midnight (`ℕ`
  in the availability input, as produced by `timeToMinutes`).  The source
  converts a block's start cursor back to a string with `minutesToTime`;
  since the cursor may be fractional, we keep the cursor value (minutes since
  midnight, `ℚ`) itself as the block's `start_time` — `minutesToTime` /
  `timeToMinutes` round-trip this value exactly (`h * 60 + m`).
* `Array.prototype.sort` with a numeric comparator `c` is (per the ECMAScript
  specification) a stable sort; its output is the unique permutation that is
  sorted for the comparator's preorder and keeps elements comparing equal in
  their original relative order.  `List.insertionSort r` with
  `r a b := (c a b ≤ 0)` is exactly such a stable sort, so it is used for the
  two sorts of the source (`b.priority_score - a.priority_score` and
  `a.start - b.start`).
-/

namespace SmartScotty

/-- Day-of-week names, as in the `availabilitySchema` enum of
`study-planner-agent.ts`. -/
inductive Weekday where
  | monday
  | tuesday
  | wednesday
  | thursday
  | friday
  | saturday
  | sunday
  deriving DecidableEq, Repr

/-- `Math.round`: round half towards `+∞`, i.e. `⌊x + 1/2⌋`, which is
Mathlib's `round`. -/
def jsRound (q : ℚ) : ℤ := round q

/-- `Math.round(h * 10) / 10` — the 0.1-precision rounding applied to a study
block's `duration` field in `generateDailyPlan`. -/
def round1 (q : ℚ) : ℚ := (jsRound (q * 10) : ℚ) / 10

/-- `Math.round(x * 100) / 100` — the 2-decimal rounding applied to the
weights and the priority score in `prioritize`. -/
def round2 (q : ℚ) : ℚ := (jsRound (q * 100) : ℚ) / 100

/-- `getDayName` of `study-planner-agent.ts`: `date.getDay()` indexes the
array `[sunday, monday, …, saturday]`.  For the epoch-day number `d` the
weekday index is `(d + 4) % 7` (1970-01-01 was a Thursday, index 4). -/
def getDayName (d : ℤ) : Weekday :=
  match ((d + 4) % 7).toNat with
  | 0 => .sunday
  | 1 => .monday
  | 2 => .tuesday
  | 3 => .wednesday
  | 4 => .thursday
  | 5 => .friday
  | _ => .saturday

/-- One entry of the `availability` input: a weekday tag, a start and end
time-of-day (minutes since midnight, from `"HH:mm"`), and an `available`
flag (`false` = busy). -/
structure Availability where
  day : Weekday
  start_time : ℕ
  end_time : ℕ
  available : Bool
  deriving DecidableEq, Repr

/-- `getDefaultAvailability`: Monday–Friday 09:00–17:00, Saturday–Sunday
10:00–16:00, all available. -/
def getDefaultAvailability : List Availability :=
  [ ⟨.monday, 540, 1020, true⟩
  , ⟨.tuesday, 540, 1020, true⟩
  , ⟨.wednesday, 540, 1020, true⟩
  , ⟨.thursday, 540, 1020, true⟩
  , ⟨.friday, 540, 1020, true⟩
  , ⟨.saturday, 600, 960, true⟩
  , ⟨.sunday, 600, 960, true⟩ ]

/-!
## PrioritizationAgent (`prioritization-agent.ts`)
-/

/-- A task as consumed by the prioritization agent: `deadline` is a timestamp
in milliseconds since the epoch (`new Date(…).getTime()`). -/
structure TaskInput where
  id : String
  title : Option String
  deadline : ℚ
  estimated_hours : ℚ
  difficulty_score : ℚ
  deriving DecidableEq, Repr

/-- A prioritized task, as produced by `prioritize` and consumed by the study
planner. -/
structure PrioritizedTask where
  id : String
  title : Option String
  deadline : ℚ
  estimated_hours : ℚ
  difficulty_score : ℚ
  priority_score : ℚ
  urgency_weight : ℚ
  difficulty_weight : ℚ
  hours_weight : ℚ
  deriving DecidableEq, Repr

/-- `calculateUrgencyWeight`: days until the deadline are
`(deadline - now) / 86400000` ms; overdue tasks get 100, otherwise
`min 100 (max 0 (max 0 (100 - days * 10)))` (the source applies `max 0`
twice). -/
def calculateUrgencyWeight (deadline now : ℚ) : ℚ :=
  let daysUntilDeadline := (deadline - now) / 86400000
  if daysUntilDeadline < 0 then 100
  else min 100 (max 0 (max 0 (100 - daysUntilDeadline * 10)))

/-- `calculateDifficultyWeight`: `difficulty_score * 10` (no clamping). -/
def calculateDifficultyWeight (difficulty_score : ℚ) : ℚ :=
  difficulty_score * 10

/-- `calculateHoursWeight`: `min 100 (max 0 (estimated_hours * 2))`. -/
def calculateHoursWeight (estimated_hours : ℚ) : ℚ :=
  min 100 (max 0 (estimated_hours * 2))

/-- The per-task body of `prioritize`: the three weights, each rounded to two
decimals for the output fields, and `priority_score` = the *unrounded* sum of
the three weights, rounded to two decimals. -/
def scoreTask (now : ℚ) (t : TaskInput) : PrioritizedTask :=
  let urgency_weight := calculateUrgencyWeight t.deadline now
  let difficulty_weight := calculateDifficultyWeight t.difficulty_score
  let hours_weight := calculateHoursWeight t.estimated_hours
  let priority_score := urgency_weight + difficulty_weight + hours_weight
  { id := t.id
  , title := t.title
  , deadline := t.deadline
  , estimated_hours := t.estimated_hours
  , difficulty_score := t.difficulty_score
  , priority_score := round2 priority_score
  , urgency_weight := round2 urgency_weight
  , difficulty_weight := round2 difficulty_weight
  , hours_weight := round2 hours_weight }

/-- The ordering used by `prioritized.sort((a, b) => b.priority_score -
a.priority_score)`: `a` may come before `b` iff `b.priority_score ≤
a.priority_score` (descending order, ties in input order by stability). -/
def priorityGE (a b : PrioritizedTask) : Prop :=
  b.priority_score ≤ a.priority_score

instance : DecidableRel priorityGE := fun a b =>
  inferInstanceAs (Decidable (b.priority_score ≤ a.priority_score))

instance : IsTotal PrioritizedTask priorityGE :=
  ⟨fun a b => le_total b.priority_score a.priority_score⟩

instance : IsTrans PrioritizedTask priorityGE :=
  ⟨fun _ _ _ h1 h2 => le_trans h2 h1⟩

/-- `prioritize`: score every task, then sort descending by `priority_score`
with a stable sort. -/
def prioritize (tasks : List TaskInput) (now : ℚ) : List PrioritizedTask :=
  List.insertionSort priorityGE (tasks.map (scoreTask now))

/-!
## StudyPlannerAgent (`study-planner-agent.ts`)
-/

/-- A half-open-by-intent minute range `{start, end}` within one day (the
source's `{start: number; end: number}` objects); `end` is a Lean keyword so
the field is called `stop`. -/
structure TimeRange where
  start : ℚ
  stop : ℚ
  deriving DecidableEq, Repr

/-- The ordering used by `periods.sort((a, b) => a.start - b.start)`. -/
def startLE (a b : TimeRange) : Prop :=
  a.start ≤ b.start

instance : DecidableRel startLE := fun a b =>
  inferInstanceAs (Decidable (a.start ≤ b.start))

instance : IsTotal TimeRange startLE := ⟨fun a b => le_total a.start b.start⟩

instance : IsTrans TimeRange startLE := ⟨fun _ _ _ h1 h2 => le_trans h1 h2⟩

/-- The busy periods that overlap an available period, in
`getAvailableTimeSlots`: `busy.start < period.end && busy.end >
period.start`. -/
def overlapsPeriod (p b : TimeRange) : Bool :=
  decide (b.start < p.stop) && decide (p.start < b.stop)

/-- The inner loop of `getAvailableTimeSlots` that walks the (sorted) busy
periods overlapping one available period `p`, carving out the free slot
before each busy period.  State: the cursor `currentStart`, the running
`totalMinutesUsed`, and the accumulated slot list.  A `totalMinutesUsed >=
maxMinutes` check at the top of each iteration models the `break`. -/
def carveBusy (maxMinutes pStop : ℚ) :
    List TimeRange → ℚ → ℚ → List TimeRange → List TimeRange × ℚ × ℚ
  | [], currentStart, used, acc => (acc, currentStart, used)
  | b :: rest, currentStart, used, acc =>
    if maxMinutes ≤ used then (acc, currentStart, used)
    else if currentStart < b.start then
      let minutesToUse := min (min b.start pStop - currentStart) (maxMinutes - used)
      if 60 ≤ minutesToUse then
        carveBusy maxMinutes pStop rest (max currentStart b.stop)
          (used + minutesToUse) (acc ++ [⟨currentStart, currentStart + minutesToUse⟩])
      else carveBusy maxMinutes pStop rest (max currentStart b.stop) used acc
    else carveBusy maxMinutes pStop rest (max currentStart b.stop) used acc

/-- The body of `getAvailableTimeSlots`'s loop over available periods:
either use the whole period (no overlapping busy period), or split it around
the overlapping busy periods and add the tail piece after the last busy
period.  Returns the grown slot list and the new `totalMinutesUsed`. -/
def processPeriod (maxMinutes : ℚ) (busyPeriods : List TimeRange)
    (p : TimeRange) (used : ℚ) (acc : List TimeRange) : List TimeRange × ℚ :=
  let overlappingBusy := busyPeriods.filter (fun b => overlapsPeriod p b)
  if overlappingBusy.isEmpty then
    let minutesToUse := min (p.stop - p.start) (maxMinutes - used)
    if 60 ≤ minutesToUse then
      (acc ++ [⟨p.start, p.start + minutesToUse⟩], used + minutesToUse)
    else (acc, used)
  else
    let obs := List.insertionSort startLE overlappingBusy
    let r := carveBusy maxMinutes p.stop obs p.start used acc
    let currentStart := r.2.1
    let used1 := r.2.2
    if currentStart < p.stop ∧ used1 < maxMinutes then
      let minutesToUse := min (p.stop - currentStart) (maxMinutes - used1)
      if 60 ≤ minutesToUse then
        (r.1 ++ [⟨currentStart, currentStart + minutesToUse⟩], used1 + minutesToUse)
      else (r.1, used1)
    else (r.1, used1)

/-- The loop of `getAvailableTimeSlots` over the sorted available periods,
with the `totalMinutesUsed >= maxMinutes` break at the top of each
iteration. -/
def slotsLoop (maxMinutes : ℚ) (busyPeriods : List TimeRange) :
    List TimeRange → ℚ → List TimeRange → List TimeRange
  | [], _, acc => acc
  | p :: rest, used, acc =>
    if maxMinutes ≤ used then acc
    else
      let r := processPeriod maxMinutes busyPeriods p used acc
      slotsLoop maxMinutes busyPeriods rest r.2 r.1

/-- `getAvailableTimeSlots`: filter the availability entries whose weekday
tag matches the date; if none match, fall back to the built-in default hours
(Mon–Fri 09:00 + `min 8 maxHoursPerDay` hours, Sat–Sun 10:00 +
`min 6 maxHoursPerDay` hours); otherwise split the available periods around
the busy ones, respecting the `maxHoursPerDay * 60` minute cap and the
60-minute minimum slot granularity. -/
def getAvailableTimeSlots (date : ℤ) (availability : List Availability)
    (maxHoursPerDay : ℚ) : List TimeRange :=
  let dayName := getDayName date
  let dayAvailability := availability.filter (fun a => decide (a.day = dayName))
  if dayAvailability.isEmpty then
    if dayName = .saturday ∨ dayName = .sunday then
      [⟨600, 600 + min 6 maxHoursPerDay * 60⟩]
    else
      [⟨540, 540 + min 8 maxHoursPerDay * 60⟩]
  else
    let availablePeriods := List.insertionSort startLE
      ((dayAvailability.filter (fun a => a.available)).map
        (fun a => ⟨(a.start_time : ℚ), (a.end_time : ℚ)⟩))
    let busyPeriods := List.insertionSort startLE
      ((dayAvailability.filter (fun a => !a.available)).map
        (fun a => ⟨(a.start_time : ℚ), (a.end_time : ℚ)⟩))
    slotsLoop (maxHoursPerDay * 60) busyPeriods availablePeriods 0 []

/-- An output study block: `day` is the calendar-day number, `start_time` the
start cursor in minutes since midnight, `duration` in hours (rounded to 0.1
by the source). -/
structure StudyBlock where
  task_id : String
  day : ℤ
  start_time : ℚ
  duration : ℚ
  task_title : Option String
  deriving DecidableEq, Repr

/-- A prioritized task together with the planner's mutable `remaining_hours`
bookkeeping (`{...task, remaining_hours}` in `generateWeeklyPlan`). -/
structure TaskRem where
  toTask : PrioritizedTask
  remaining_hours : ℚ
  deriving DecidableEq, Repr

/-- A slot together with the cursor `currentTime` tracking how far into the
slot the day's blocks have been scheduled (`slotPositions` in
`generateDailyPlan`). -/
structure SlotPos where
  slot : TimeRange
  currentTime : ℚ
  deriving DecidableEq, Repr

/-- The inner loop of `generateDailyPlan` that schedules one task across the
slot cursors: for each slot with at least 60 minutes left, allocate
`min remaining_hours gapHours` (if at least 1 hour), emit a block whose
`duration` is rounded to 0.1 h, advance the cursor, and decrement the
remaining hours.  Returns the blocks, the updated cursors, and the task's new
remaining hours. -/
def scheduleTask (day : ℤ) (tid : String) (title : Option String) :
    ℚ → List SlotPos → List StudyBlock × List SlotPos × ℚ
  | rem, [] => ([], [], rem)
  | rem, sp :: rest =>
    if rem ≤ 0 then ([], sp :: rest, rem)
    else
      let remainingMinutes := sp.slot.stop - sp.currentTime
      if remainingMinutes < 60 then
        let r := scheduleTask day tid title rem rest
        (r.1, sp :: r.2.1, r.2.2)
      else
        let hoursToSchedule := min rem (remainingMinutes / 60)
        if 1 ≤ hoursToSchedule then
          let b : StudyBlock :=
            ⟨tid, day, sp.currentTime, round1 hoursToSchedule, title⟩
          let r := scheduleTask day tid title (rem - hoursToSchedule) rest
          (b :: r.1, ⟨sp.slot, sp.currentTime + hoursToSchedule * 60⟩ :: r.2.1, r.2.2)
        else
          let r := scheduleTask day tid title rem rest
          (r.1, sp :: r.2.1, r.2.2)

/-- The loop of `generateDailyPlan` over the priority-sorted tasks.  Each
entry carries its index in the original task list (standing for the object
identity through which the source mutates `remaining_hours` in place); the
result records each processed entry's new remaining hours. -/
def scheduleTasks (day : ℤ) :
    List (ℕ × TaskRem) → List SlotPos → List StudyBlock × List SlotPos × List (ℕ × ℚ)
  | [], sps => ([], sps, [])
  | (i, t) :: ts, sps =>
    if t.remaining_hours ≤ 0 then
      let r := scheduleTasks day ts sps
      (r.1, r.2.1, (i, t.remaining_hours) :: r.2.2)
    else
      let s := scheduleTask day t.toTask.id t.toTask.title t.remaining_hours sps
      let r := scheduleTasks day ts s.2.1
      (s.1 ++ r.1, r.2.1, (i, s.2.2) :: r.2.2)

/-- Write the new remaining hours recorded by `scheduleTasks` back into the
task list (the in-place mutation of the shared task objects in the
source). -/
def applyRemUpdates (tasks : List TaskRem) (updates : List (ℕ × ℚ)) : List TaskRem :=
  tasks.enum.map (fun p =>
    match updates.lookup p.1 with
    | some r => { p.2 with remaining_hours := r }
    | none => p.2)

/-- `generateDailyPlan`: compute the day's free slots, sort the tasks with
positive remaining hours by descending `priority_score` (stable), and
schedule them greedily across the slot cursors.  Returns the day's blocks
and the task list with updated remaining hours (the source mutates the
shared task objects instead of returning them). -/
def generateDailyPlan (day : ℤ) (tasks : List TaskRem)
    (availability : List Availability) (maxHoursPerDay : ℚ) :
    List StudyBlock × List TaskRem :=
  let timeSlots := getAvailableTimeSlots day availability maxHoursPerDay
  if timeSlots.isEmpty then ([], tasks)
  else
    let sortedTasks := List.insertionSort
      (fun a b : ℕ × TaskRem => priorityGE a.2.toTask b.2.toTask)
      (tasks.enum.filter (fun p => decide (0 < p.2.remaining_hours)))
    let slotPositions := timeSlots.map (fun s => SlotPos.mk s s.start)
    let r := scheduleTasks day sortedTasks slotPositions
    (r.1, applyRemUpdates tasks r.2.2)

/-- The day-by-day loop of `generateWeeklyPlan`: process up to `n` more days
starting at `date`, threading the remaining-hours state, and stop early as
soon as every task's remaining hours are ≤ 0 (checked after each day's blocks
are appended). -/
def weeklyLoop (availability : List Availability) (maxHoursPerDay : ℚ) :
    ℕ → ℤ → List TaskRem → List StudyBlock
  | 0, _, _ => []
  | n + 1, date, tasks =>
    let r := generateDailyPlan date tasks availability maxHoursPerDay
    if r.2.all (fun t => decide (t.remaining_hours ≤ 0)) then r.1
    else r.1 ++ weeklyLoop availability maxHoursPerDay n (date + 1) r.2

/-- The initial remaining-hours state of `generateWeeklyPlan`:
`remaining_hours = estimated_hours` for every task. -/
def initTasks (tasks : List PrioritizedTask) : List TaskRem :=
  tasks.map (fun t => ⟨t, t.estimated_hours⟩)

/-- `generateWeeklyPlan`: substitute the default availability if none is
given, initialize `remaining_hours`, and run the daily planner over a 7-day
horizon starting at `startDate`, stopping early when all tasks are done. -/
def generateWeeklyPlan (tasks : List PrioritizedTask)
    (availability : List Availability) (maxHoursPerDay : ℚ)
    (startDate : ℤ) : List StudyBlock :=
  let avail := if availability.isEmpty then getDefaultAvailability else availability
  weeklyLoop avail maxHoursPerDay 7 startDate (initTasks tasks)

/-- The remaining-hours state after `m` more days of the weekly loop (the
state `generateWeeklyPlan`'s early-termination check reads); once every task
is finished the daily planner no longer changes the state, so iterating
unconditionally agrees with the loop while it runs. -/
def stateAfter (availability : List Availability) (maxHoursPerDay : ℚ) :
    ℕ → ℤ → List TaskRem → List TaskRem
  | 0, _, tasks => tasks
  | m + 1, date, tasks =>
    stateAfter availability maxHoursPerDay m (date + 1)
      (generateDailyPlan date tasks availability maxHoursPerDay).2

/-!
## Observables the specification talks about
-/

/-- Two half-open rational ranges `[s1, e1)` and `[s2, e2)` share a point. -/
def overlapQ (s1 e1 s2 e2 : ℚ) : Prop := max s1 s2 < min e1 e2

/-- Two study blocks overlap in time, each block's range being
`[start_time, start_time + duration)` computed from the output `duration`
field (hours, hence `duration * 60` minutes). -/
def blocksOverlap (b1 b2 : StudyBlock) : Prop :=
  overlapQ b1.start_time (b1.start_time + b1.duration * 60)
    b2.start_time (b2.start_time + b2.duration * 60)

/-- No two blocks of the same calendar day overlap. -/
def NoDayOverlap (blocks : List StudyBlock) : Prop :=
  List.Pairwise (fun b1 b2 => b1.day = b2.day → ¬ blocksOverlap b1 b2) blocks

/-- Total scheduled hours of the blocks referencing a given task id. -/
def taskHours (tid : String) (blocks : List StudyBlock) : ℚ :=
  ((blocks.filter (fun b => decide (b.task_id = tid))).map (fun b => b.duration)).sum

/-- Total scheduled hours of the blocks on a given calendar day. -/
def dayHours (d : ℤ) (blocks : List StudyBlock) : ℚ :=
  ((blocks.filter (fun b => decide (b.day = d))).map (fun b => b.duration)).sum

/-- A study block's time range intersects an availability interval's range. -/
def blockMeetsInterval (b : StudyBlock) (a : Availability) : Prop :=
  overlapQ b.start_time (b.start_time + b.duration * 60)
    (a.start_time : ℚ) (a.end_time : ℚ)

/-- Total length, in minutes, of a list of time ranges. -/
def slotMinutes (slots : List TimeRange) : ℚ :=
  (slots.map (fun s => s.stop - s.start)).sum

/-- Total duration, in hours, of a list of study blocks. -/
def sumDur (blocks : List StudyBlock) : ℚ :=
  (blocks.map (fun b => b.duration)).sum

/-- Two time ranges share a point. -/
def overlapR (s t : TimeRange) : Prop :=
  max s.start t.start < min s.stop t.stop


/-!
## Alignment predicates

The source rounds every emitted block `duration` to 0.1 h while advancing its
internal cursors by the unrounded amount.  The rounding is the identity — and
the emitted blocks describe the allocation exactly — when every quantity the
allocator manipulates is a multiple of 0.1 h (equivalently 6 minutes): that
holds when all availability times are multiples of 6 minutes and the
estimated hours and the daily cap are multiples of 0.1 h.
-/

/-- A rational that is an integer multiple of 1/10 (of an hour). -/
def Tenth (q : ℚ) : Prop := ∃ k : ℤ, q = k / 10

/-- A rational that is an integer multiple of 6 (minutes). -/
def Mult6 (q : ℚ) : Prop := ∃ k : ℤ, q = 6 * k

/-- All availability times fall on 6-minute boundaries. -/
def TimesAligned (availability : List Availability) : Prop :=
  ∀ a ∈ availability, 6 ∣ a.start_time ∧ 6 ∣ a.end_time

/-- Every availability interval is well-formed: `start_time < end_time`
(the data-model invariant of spec §3). -/
def WFIntervals (availability : List Availability) : Prop :=
  ∀ a ∈ availability, a.start_time < a.end_time

/-- Available (open) intervals tagged with the same weekday are pairwise
non-overlapping. -/
def OpenDisjoint (availability : List Availability) : Prop :=
  List.Pairwise (fun a b => a.day = b.day → a.available = true →
    b.available = true →
    ¬ (max a.start_time b.start_time < min a.end_time b.end_time)) availability

/-- The invariant each slot cursor satisfies throughout a day: the cursor is
at or after the slot start, is either within the slot or still at the start,
and (on 0.1-h-aligned inputs) cursor and slot end are multiples of 6
minutes. -/
def SPInv (sp : SlotPos) : Prop :=
  sp.slot.start ≤ sp.currentTime
  ∧ (sp.currentTime ≤ sp.slot.stop ∨ sp.currentTime = sp.slot.start)
  ∧ Mult6 sp.currentTime ∧ Mult6 sp.slot.stop

/-- How a slot cursor evolves during a day: the slot itself is unchanged and
the cursor only moves forward, staying within the slot whenever it moves. -/
def SPRel (sp sp' : SlotPos) : Prop :=
  sp'.slot = sp.slot ∧ sp.currentTime ≤ sp'.currentTime
  ∧ (sp'.currentTime = sp.currentTime ∨ sp'.currentTime ≤ sp.slot.stop)

/-- A study block emitted during a day lies inside one slot, after that
slot's cursor position at the start of the considered step and before its
position at the end of it. -/
def BlockWitness (b : StudyBlock) (sps sps' : List SlotPos) : Prop :=
  ∃ sp ∈ sps, ∃ sp' ∈ sps', sp'.slot = sp.slot
    ∧ sp.slot.start ≤ b.start_time
    ∧ sp.currentTime ≤ b.start_time
    ∧ b.start_time + b.duration * 60 ≤ sp'.currentTime
    ∧ sp'.currentTime ≤ sp.slot.stop

/-- The priority-sorted, positive-remaining-hours task entries built inside
`generateDailyPlan` (each paired with its index in the original list). -/
def dailySorted (tasks : List TaskRem) : List (ℕ × TaskRem) :=
  List.insertionSort (fun a b : ℕ × TaskRem => priorityGE a.2.toTask b.2.toTask)
    (tasks.enum.filter (fun p => decide (0 < p.2.remaining_hours)))

/-- The initial slot cursors built inside `generateDailyPlan`. -/
def dailySlotPos (day : ℤ) (availability : List Availability)
    (maxHoursPerDay : ℚ) : List SlotPos :=
  (getAvailableTimeSlots day availability maxHoursPerDay).map
    (fun s => SlotPos.mk s s.start)

/-!
## Concrete instances used by counterexamples, scenarios and witnesses
-/

/-- A single available interval, Monday 09:00–17:00. -/
def monAvail : List Availability := [⟨.monday, 540, 1020, true⟩]

/-- Counterexample input to C1: a 2.26-hour top-priority task followed by a
3-hour task. -/
def c1tasks : List PrioritizedTask :=
  [ ⟨"t1", none, 0, 226/100, 5, 100, 0, 0, 0⟩
  , ⟨"t2", none, 0, 3, 5, 50, 0, 0, 0⟩ ]

/-- Counterexample input to C2: a single 1.26-hour task. -/
def c2tasks : List PrioritizedTask := [⟨"t1", none, 0, 126/100, 5, 100, 0, 0, 0⟩]

/-- Counterexample input to C3: 1.97 h + 1.97 h + 2.06 h fill the 6-hour cap
exactly, but every emitted duration is rounded up. -/
def c3tasks : List PrioritizedTask :=
  [ ⟨"a", none, 0, 197/100, 5, 300, 0, 0, 0⟩
  , ⟨"b", none, 0, 197/100, 5, 200, 0, 0, 0⟩
  , ⟨"c", none, 0, 206/100, 5, 100, 0, 0, 0⟩ ]

/-- Counterexample input to C4: overdue task with `difficulty_score = 1.0004`
and `estimated_hours = 1.002`, whose sub-cent weight parts add up past a
cent. -/
def c4task : TaskInput := ⟨"x", none, -1, 1002/1000, 10004/10000⟩

/-- C4, the claim as stated: each weight is rounded to 2 decimals *before*
summing, and `priority_score` is the rounded sum of the three rounded
weights. -/
def claimScoreTaskC4 (now : ℚ) (t : TaskInput) : PrioritizedTask :=
  let urgency_weight := round2 (calculateUrgencyWeight t.deadline now)
  let difficulty_weight := round2 (calculateDifficultyWeight t.difficulty_score)
  let hours_weight := round2 (calculateHoursWeight t.estimated_hours)
  { id := t.id
  , title := t.title
  , deadline := t.deadline
  , estimated_hours := t.estimated_hours
  , difficulty_score := t.difficulty_score
  , priority_score := round2 (urgency_weight + difficulty_weight + hours_weight)
  , urgency_weight := urgency_weight
  , difficulty_weight := difficulty_weight
  , hours_weight := hours_weight }

/-- C4 as amended, written from the claim's formulas: `urgency_weight = 100`
when `days_until_deadline < 0` and `clamp(100 - days*10, 0, 100)` otherwise,
`difficulty_weight = difficulty_score * 10`,
`hours_weight = clamp(estimated_hours * 2, 0, 100)`; the three weights are
each rounded to 2 decimals *for the output weight fields only*, while
`priority_score` is the sum of the three *unrounded* weights, rounded to 2
decimals. -/
def specScoreTaskC4 (now : ℚ) (t : TaskInput) : PrioritizedTask :=
  let days_until_deadline := (t.deadline - now) / 86400000
  let urgency_weight :=
    if days_until_deadline < 0 then (100 : ℚ)
    else min 100 (max 0 (100 - days_until_deadline * 10))
  let difficulty_weight := t.difficulty_score * 10
  let hours_weight := min 100 (max 0 (t.estimated_hours * 2))
  { id := t.id
  , title := t.title
  , deadline := t.deadline
  , estimated_hours := t.estimated_hours
  , difficulty_score := t.difficulty_score
  , priority_score := round2 (urgency_weight + difficulty_weight + hours_weight)
  , urgency_weight := round2 urgency_weight
  , difficulty_weight := round2 difficulty_weight
  , hours_weight := round2 hours_weight }

/-- Counterexample input to C5: Monday 09:00–11:00 open, 10:05–11:00 busy
(so the free slot is the 65-minute range 09:00–10:05), and a task that fills
the slot exactly with 65/60 hours. -/
def c5avail : List Availability :=
  [⟨.monday, 540, 660, true⟩, ⟨.monday, 605, 660, false⟩]

/-- The single task of the C5 counterexample. -/
def c5tasks : List PrioritizedTask := [⟨"t", none, 0, 65/60, 5, 100, 0, 0, 0⟩]

/-- Scenario B availability (claim C7): Monday 09:00–17:00 open plus a busy
interval 12:00–13:00. -/
def c7avail : List Availability :=
  [⟨.monday, 540, 1020, true⟩, ⟨.monday, 720, 780, false⟩]

/-- A simple 2-hour prioritized task used by the witnesses of the amended
claims (its estimate is a multiple of 0.1 h). -/
def wtask : PrioritizedTask := ⟨"w", none, 0, 2, 5, 100, 0, 0, 0⟩

/-- A 6-minute-aligned availability with a busy interval, for the C5 witness:
Monday 09:00–11:00 open, 10:00–11:00 busy. -/
def w5avail : List Availability :=
  [⟨.monday, 540, 660, true⟩, ⟨.monday, 600, 660, false⟩]

/-- A busy-only Monday availability, for the C10 witness. -/
def w10avail : List Availability := [⟨.monday, 540, 600, false⟩]

/-- The two tasks of Scenario C (claim C6), both due in one day
(`deadline = 86400000 ms`, `now = 0`): a 40-hour difficulty-9 task and a
5-hour difficulty-2 task. -/
def c6tasks : List TaskInput :=
  [⟨"big", none, 86400000, 40, 9⟩, ⟨"small", none, 86400000, 5, 2⟩]

/-- The scored form of Scenario C's large task: urgency 90, difficulty 90,
hours 80, `priority_score` 260. -/
def c6big : PrioritizedTask := ⟨"big", none, 86400000, 40, 9, 260, 90, 90, 80⟩

/-- The scored form of Scenario C's small task: urgency 90, difficulty 20,
hours 10, `priority_score` 120. -/
def c6small : PrioritizedTask := ⟨"small", none, 86400000, 5, 2, 120, 90, 20, 10⟩

/-!
## Theorems
-/

/-! ### Arithmetic helper lemmas -/

theorem mult6_add {a b : ℚ} (ha : Mult6 a) (hb : Mult6 b) : Mult6 (a + b) := by
  obtain ⟨k, rfl⟩ := ha
  obtain ⟨l, rfl⟩ := hb
  exact ⟨k + l, by push_cast; ring⟩

theorem mult6_sub {a b : ℚ} (ha : Mult6 a) (hb : Mult6 b) : Mult6 (a - b) := by
  obtain ⟨k, rfl⟩ := ha
  obtain ⟨l, rfl⟩ := hb
  exact ⟨k - l, by push_cast; ring⟩

theorem mult6_min {a b : ℚ} (ha : Mult6 a) (hb : Mult6 b) : Mult6 (min a b) := by
  rcases le_total a b with h | h
  · rwa [min_eq_left h]
  · rwa [min_eq_right h]

theorem mult6_max {a b : ℚ} (ha : Mult6 a) (hb : Mult6 b) : Mult6 (max a b) := by
  rcases le_total a b with h | h
  · rwa [max_eq_right h]
  · rwa [max_eq_left h]

theorem mult6_natCast {n : ℕ} (h : 6 ∣ n) : Mult6 (n : ℚ) := by
  obtain ⟨m, rfl⟩ := h
  exact ⟨m, by push_cast; ring⟩

theorem tenth_div60_of_mult6 {a : ℚ} (ha : Mult6 a) : Tenth (a / 60) := by
  obtain ⟨k, rfl⟩ := ha
  exact ⟨k, by ring⟩

theorem mult6_mul60_of_tenth {h : ℚ} (hh : Tenth h) : Mult6 (h * 60) := by
  obtain ⟨k, rfl⟩ := hh
  exact ⟨k, by ring⟩

theorem tenth_min {a b : ℚ} (ha : Tenth a) (hb : Tenth b) : Tenth (min a b) := by
  rcases le_total a b with h | h
  · rwa [min_eq_left h]
  · rwa [min_eq_right h]

theorem tenth_sub {a b : ℚ} (ha : Tenth a) (hb : Tenth b) : Tenth (a - b) := by
  obtain ⟨k, rfl⟩ := ha
  obtain ⟨l, rfl⟩ := hb
  exact ⟨k - l, by push_cast; ring⟩

/-- On multiples of 0.1 the source's 0.1-precision rounding is the
identity: an emitted `duration` equals the unrounded allocated amount. -/
theorem round1_eq_of_tenth {q : ℚ} (hq : Tenth q) : round1 q = q := by
  obtain ⟨k, rfl⟩ := hq
  have h : (k : ℚ) / 10 * 10 = (k : ℚ) := by field_simp
  rw [round1, jsRound, h, round_intCast]

/-! ### List helper lemmas -/

theorem forall₂_refl_of {α : Type} {R : α → α → Prop} (h : ∀ a, R a a) :
    ∀ l : List α, List.Forall₂ R l l
  | [] => List.Forall₂.nil
  | a :: l => List.Forall₂.cons (h a) (forall₂_refl_of h l)

theorem forall₂_comp {α : Type} {R S T : α → α → Prop}
    (h : ∀ a b c, R a b → S b c → T a c) :
    ∀ {l1 l2 l3 : List α}, List.Forall₂ R l1 l2 → List.Forall₂ S l2 l3 →
      List.Forall₂ T l1 l3
  | _, _, _, List.Forall₂.nil, List.Forall₂.nil => List.Forall₂.nil
  | _, _, _, List.Forall₂.cons hab h12, List.Forall₂.cons hbc h23 =>
    List.Forall₂.cons (h _ _ _ hab hbc) (forall₂_comp h h12 h23)

theorem forall₂_mem_left {α β : Type} {R : α → β → Prop} :
    ∀ {l1 : List α} {l2 : List β}, List.Forall₂ R l1 l2 → ∀ {a}, a ∈ l1 →
      ∃ b ∈ l2, R a b
  | _, _, List.Forall₂.cons hab h12, a, ha => by
    rcases List.mem_cons.mp ha with rfl | ha
    · exact ⟨_, List.mem_cons_self _ _, hab⟩
    · obtain ⟨b, hb, hr⟩ := forall₂_mem_left h12 ha
      exact ⟨b, List.mem_cons_of_mem _ hb, hr⟩

/-- The slot-cursor evolution relation is reflexive. -/
theorem sprel_refl (sp : SlotPos) : SPRel sp sp :=
  ⟨rfl, le_refl _, Or.inl rfl⟩

/-- The slot-cursor evolution relation is transitive. -/
theorem sprel_trans {a b c : SlotPos} (h1 : SPRel a b) (h2 : SPRel b c) :
    SPRel a c := by
  obtain ⟨hs1, hc1, hd1⟩ := h1
  obtain ⟨hs2, hc2, hd2⟩ := h2
  refine ⟨hs2.trans hs1, hc1.trans hc2, ?_⟩
  rcases hd2 with h | h
  · rcases hd1 with h' | h'
    · exact Or.inl (h.trans h')
    · exact Or.inr (h ▸ h')
  · rw [hs1] at h
    exact Or.inr h

/-- Cursor evolution leaves the underlying slots unchanged. -/
theorem sprel_map_slot {sps sps' : List SlotPos}
    (h : List.Forall₂ SPRel sps sps') :
    sps'.map (fun sp => sp.slot) = sps.map (fun sp => sp.slot) := by
  induction h with
  | nil => rfl
  | cons hab _ ih => simp [ih, hab.1]

/-- In a list of slot positions with pairwise non-overlapping slots, any two
entries carrying the same non-degenerate slot are the same entry. -/
theorem slotpos_unique {sps : List SlotPos}
    (hp : List.Pairwise (fun a b : SlotPos => ¬ overlapR a.slot b.slot) sps) :
    ∀ {x y : SlotPos}, x ∈ sps → y ∈ sps → x.slot = y.slot →
      overlapR x.slot x.slot → x = y := by
  induction hp with
  | nil => intro x y hx _ _ _; cases hx
  | cons ha _ ih =>
    intro x y hx hy heq hover
    rcases List.mem_cons.mp hx with hx1 | hx1
    · rcases List.mem_cons.mp hy with hy1 | hy1
      · rw [hx1, hy1]
      · subst hx1
        exact absurd (show overlapR x.slot y.slot by rw [heq] at hover ⊢; exact hover)
          (ha y hy1)
    · rcases List.mem_cons.mp hy with hy1 | hy1
      · subst hy1
        exact absurd (show overlapR y.slot x.slot by rw [← heq]; exact hover) (ha x hx1)
      · exact ih hx1 hy1 heq hover

/-! ### Properties of `getAvailableTimeSlots` -/

theorem carveBusy_acc (m pe : ℚ) (bs : List TimeRange) :
    ∀ (cs used : ℚ) (acc : List TimeRange),
      carveBusy m pe bs cs used acc =
        (acc ++ (carveBusy m pe bs cs used []).1,
          (carveBusy m pe bs cs used []).2) := by
  induction bs with
  | nil => intro cs used acc; simp [carveBusy]
  | cons b rest ih =>
    intro cs used acc
    by_cases hbr : m ≤ used
    · simp [carveBusy, hbr]
    · by_cases h1 : cs < b.start
      · by_cases h2 : (60:ℚ) ≤ min (min b.start pe - cs) (m - used)
        · simp only [carveBusy, if_neg hbr, if_pos h1, if_pos h2]
          rw [ih _ _ (acc ++ [_]), ih _ _ (List.nil ++ [_])]
          simp
        · simp only [carveBusy, if_neg hbr, if_pos h1, if_neg h2]
          exact ih _ _ acc
      · simp only [carveBusy, if_neg hbr, if_neg h1]
        exact ih _ _ acc

theorem carveBusy_used (m pe : ℚ) (bs : List TimeRange) :
    ∀ (cs used : ℚ),
      (carveBusy m pe bs cs used []).2.2 =
        used + slotMinutes (carveBusy m pe bs cs used []).1
      ∧ used ≤ (carveBusy m pe bs cs used []).2.2
      ∧ (used ≤ m → (carveBusy m pe bs cs used []).2.2 ≤ m) := by
  induction bs with
  | nil => intro cs used; simp [carveBusy, slotMinutes]
  | cons b rest ih =>
    intro cs used
    by_cases hbr : m ≤ used
    · simp [carveBusy, hbr, slotMinutes]
    · push_neg at hbr
      by_cases h1 : cs < b.start
      · by_cases h2 : (60:ℚ) ≤ min (min b.start pe - cs) (m - used)
        · simp only [carveBusy, if_neg (not_le.mpr hbr), if_pos h1, if_pos h2]
          rw [carveBusy_acc]
          obtain ⟨e1, e2, e3⟩ := ih (max cs b.stop) (used + min (min b.start pe - cs) (m - used))
          refine ⟨?_, ?_, ?_⟩
          · simp only [e1, slotMinutes, List.map_append, List.sum_append]
            simp [slotMinutes]
            ring
          · refine le_trans ?_ e2
            have : (0:ℚ) ≤ min (min b.start pe - cs) (m - used) := by linarith
            linarith
          · intro _
            refine e3 ?_
            have : min (min b.start pe - cs) (m - used) ≤ m - used := min_le_right _ _
            linarith
        · simp only [carveBusy, if_neg (not_le.mpr hbr), if_pos h1, if_neg h2]
          exact ih _ _
      · simp only [carveBusy, if_neg (not_le.mpr hbr), if_neg h1]
        exact ih _ _

theorem carveBusy_mem (m pe : ℚ) (bs : List TimeRange) :
    ∀ (cs used : ℚ),
      (∀ s ∈ (carveBusy m pe bs cs used []).1,
        cs ≤ s.start ∧ s.stop ≤ pe ∧ 60 ≤ s.stop - s.start)
      ∧ cs ≤ (carveBusy m pe bs cs used []).2.1 := by
  induction bs with
  | nil => intro cs used; simp [carveBusy]
  | cons b rest ih =>
    intro cs used
    by_cases hbr : m ≤ used
    · simp [carveBusy, hbr]
    · by_cases h1 : cs < b.start
      · by_cases h2 : (60:ℚ) ≤ min (min b.start pe - cs) (m - used)
        · simp only [carveBusy, if_neg hbr, if_pos h1, if_pos h2]
          rw [carveBusy_acc]
          obtain ⟨m1, m2⟩ := ih (max cs b.stop) (used + min (min b.start pe - cs) (m - used))
          have hcs : cs ≤ max cs b.stop := le_max_left _ _
          have hmtu1 : min (min b.start pe - cs) (m - used) ≤ min b.start pe - cs :=
            min_le_left _ _
          have hpe : min b.start pe ≤ pe := min_le_right _ _
          constructor
          · intro s hs
            rcases List.mem_append.mp hs with hs | hs
            · rcases List.mem_singleton.mp hs with rfl
              refine ⟨le_refl _, ?_, ?_⟩
              · simp only
                linarith
              · simp only
                linarith
            · obtain ⟨a1, a2, a3⟩ := m1 s hs
              exact ⟨le_trans hcs a1, a2, a3⟩
          · exact le_trans hcs m2
        · simp only [carveBusy, if_neg hbr, if_pos h1, if_neg h2]
          obtain ⟨m1, m2⟩ := ih (max cs b.stop) used
          have hcs : cs ≤ max cs b.stop := le_max_left _ _
          exact ⟨fun s hs => ⟨le_trans hcs (m1 s hs).1, (m1 s hs).2⟩, le_trans hcs m2⟩
      · simp only [carveBusy, if_neg hbr, if_neg h1]
        obtain ⟨m1, m2⟩ := ih (max cs b.stop) used
        have hcs : cs ≤ max cs b.stop := le_max_left _ _
        exact ⟨fun s hs => ⟨le_trans hcs (m1 s hs).1, (m1 s hs).2⟩, le_trans hcs m2⟩

theorem not_overlapR_left {s t : TimeRange} (h : s.stop ≤ t.start) :
    ¬ overlapR s t := by
  intro hc
  have h1 : min s.stop t.stop ≤ s.stop := min_le_left _ _
  have h2 : t.start ≤ max s.start t.start := le_max_right _ _
  exact absurd hc (by unfold overlapR; push_neg; linarith)

theorem not_overlapR_right {s t : TimeRange} (h : t.stop ≤ s.start) :
    ¬ overlapR s t := by
  intro hc
  have h1 : min s.stop t.stop ≤ t.stop := min_le_right _ _
  have h2 : s.start ≤ max s.start t.start := le_max_left _ _
  exact absurd hc (by unfold overlapR; push_neg; linarith)

/-- Ranges contained in non-overlapping ranges do not overlap. -/
theorem not_overlapR_mono {s t p q : TimeRange}
    (hs1 : p.start ≤ s.start) (hs2 : s.stop ≤ p.stop)
    (ht1 : q.start ≤ t.start) (ht2 : t.stop ≤ q.stop)
    (h : ¬ overlapR p q) : ¬ overlapR s t := by
  intro hc
  refine h ?_
  unfold overlapR at hc ⊢
  have e1 : max p.start q.start ≤ max s.start t.start := max_le_max hs1 ht1
  have e2 : min s.stop t.stop ≤ min p.stop q.stop := min_le_min hs2 ht2
  linarith

theorem carveBusy_busy_disjoint (m pe : ℚ) (bs : List TimeRange)
    (hsort : List.Pairwise startLE bs) :
    ∀ (cs used : ℚ), ∀ s ∈ (carveBusy m pe bs cs used []).1, ∀ b ∈ bs,
      ¬ overlapR s b := by
  induction bs with
  | nil => intro cs used s hs; simp [carveBusy] at hs
  | cons b rest ih =>
    obtain ⟨hhead, htail⟩ := List.pairwise_cons.mp hsort
    intro cs used s hs b' hb'
    by_cases hbr : m ≤ used
    · simp [carveBusy, hbr] at hs
    · have hcs'' : max cs b.stop ≤ (carveBusy m pe rest (max cs b.stop) used []).2.1 :=
        (carveBusy_mem m pe rest _ _).2
      by_cases h1 : cs < b.start
      · by_cases h2 : (60:ℚ) ≤ min (min b.start pe - cs) (m - used)
        · rw [show carveBusy m pe (b :: rest) cs used [] =
              carveBusy m pe rest (max cs b.stop)
                (used + min (min b.start pe - cs) (m - used))
                ([⟨cs, cs + min (min b.start pe - cs) (m - used)⟩]) by
            simp only [carveBusy, if_neg hbr, if_pos h1, if_pos h2]; simp] at hs
          rw [carveBusy_acc] at hs
          have hstop : cs + min (min b.start pe - cs) (m - used) ≤ b.start := by
            have e1 : min (min b.start pe - cs) (m - used) ≤ min b.start pe - cs :=
              min_le_left _ _
            have e2 : min b.start pe ≤ b.start := min_le_left _ _
            linarith
          rcases List.mem_append.mp hs with hs | hs
          · rcases List.mem_singleton.mp hs with rfl
            rcases List.mem_cons.mp hb' with rfl | hb'
            · exact not_overlapR_left hstop
            · exact not_overlapR_left (le_trans hstop (hhead b' hb'))
          · rcases List.mem_cons.mp hb' with rfl | hb'
            · have := ((carveBusy_mem m pe rest (max cs b'.stop) _).1 s hs).1
              exact not_overlapR_right (le_trans (le_max_right _ _) this)
            · exact ih htail _ _ s hs b' hb'
        · rw [show carveBusy m pe (b :: rest) cs used [] =
              carveBusy m pe rest (max cs b.stop) used [] by
            simp only [carveBusy, if_neg hbr, if_pos h1, if_neg h2]] at hs
          rcases List.mem_cons.mp hb' with rfl | hb'
          · have := ((carveBusy_mem m pe rest (max cs b'.stop) _).1 s hs).1
            exact not_overlapR_right (le_trans (le_max_right _ _) this)
          · exact ih htail _ _ s hs b' hb'
      · rw [show carveBusy m pe (b :: rest) cs used [] =
            carveBusy m pe rest (max cs b.stop) used [] by
          simp only [carveBusy, if_neg hbr, if_neg h1]] at hs
        rcases List.mem_cons.mp hb' with rfl | hb'
        · have := ((carveBusy_mem m pe rest (max cs b'.stop) _).1 s hs).1
          exact not_overlapR_right (le_trans (le_max_right _ _) this)
        · exact ih htail _ _ s hs b' hb'

theorem carveBusy_ordered (m pe : ℚ) (bs : List TimeRange)
    (hwf : ∀ b ∈ bs, b.start < b.stop) :
    ∀ (cs used : ℚ),
      List.Pairwise (fun s t : TimeRange => s.stop ≤ t.start)
        (carveBusy m pe bs cs used []).1
      ∧ ∀ s ∈ (carveBusy m pe bs cs used []).1,
          s.stop ≤ (carveBusy m pe bs cs used []).2.1 := by
  induction bs with
  | nil => intro cs used; simp [carveBusy]
  | cons b rest ih =>
    intro cs used
    by_cases hbr : m ≤ used
    · simp [carveBusy, hbr]
    · have hbwf := hwf b (List.mem_cons_self _ _)
      have hwf' : ∀ b' ∈ rest, b'.start < b'.stop :=
        fun b' hb' => hwf b' (List.mem_cons_of_mem _ hb')
      by_cases h1 : cs < b.start
      · by_cases h2 : (60:ℚ) ≤ min (min b.start pe - cs) (m - used)
        · rw [show carveBusy m pe (b :: rest) cs used [] =
              carveBusy m pe rest (max cs b.stop)
                (used + min (min b.start pe - cs) (m - used))
                ([⟨cs, cs + min (min b.start pe - cs) (m - used)⟩]) by
            simp only [carveBusy, if_neg hbr, if_pos h1, if_pos h2]; simp]
          rw [carveBusy_acc]
          obtain ⟨o1, o2⟩ := ih hwf' (max cs b.stop)
            (used + min (min b.start pe - cs) (m - used))
          have hstop : cs + min (min b.start pe - cs) (m - used) ≤ max cs b.stop := by
            have e1 : min (min b.start pe - cs) (m - used) ≤ min b.start pe - cs :=
              min_le_left _ _
            have e2 : min b.start pe ≤ b.start := min_le_left _ _
            have e3 : b.stop ≤ max cs b.stop := le_max_right _ _
            linarith
          have hmem := (carveBusy_mem m pe rest (max cs b.stop)
            (used + min (min b.start pe - cs) (m - used))).1
          have hcur := (carveBusy_mem m pe rest (max cs b.stop)
            (used + min (min b.start pe - cs) (m - used))).2
          constructor
          · refine List.pairwise_append.mpr ⟨List.pairwise_singleton _ _, o1, ?_⟩
            intro s hs t ht
            rcases List.mem_singleton.mp hs with rfl
            exact le_trans hstop (hmem t ht).1
          · intro s hs
            rcases List.mem_append.mp hs with hs | hs
            · rcases List.mem_singleton.mp hs with rfl
              exact le_trans hstop hcur
            · exact o2 s hs
        · rw [show carveBusy m pe (b :: rest) cs used [] =
              carveBusy m pe rest (max cs b.stop) used [] by
            simp only [carveBusy, if_neg hbr, if_pos h1, if_neg h2]]
          exact ih hwf' _ _
      · rw [show carveBusy m pe (b :: rest) cs used [] =
            carveBusy m pe rest (max cs b.stop) used [] by
          simp only [carveBusy, if_neg hbr, if_neg h1]]
        exact ih hwf' _ _

theorem carveBusy_aligned (m pe : ℚ) (bs : List TimeRange)
    (hm : Mult6 m) (hpe : Mult6 pe)
    (hbs : ∀ b ∈ bs, Mult6 b.start ∧ Mult6 b.stop) :
    ∀ (cs used : ℚ), Mult6 cs → Mult6 used →
      (∀ s ∈ (carveBusy m pe bs cs used []).1, Mult6 s.start ∧ Mult6 s.stop)
      ∧ Mult6 (carveBusy m pe bs cs used []).2.1
      ∧ Mult6 (carveBusy m pe bs cs used []).2.2 := by
  induction bs with
  | nil => intro cs used hcs hused; simp [carveBusy]; exact ⟨hcs, hused⟩
  | cons b rest ih =>
    intro cs used hcs hused
    have hb := hbs b (List.mem_cons_self _ _)
    have hbs' : ∀ b' ∈ rest, Mult6 b'.start ∧ Mult6 b'.stop :=
      fun b' hb' => hbs b' (List.mem_cons_of_mem _ hb')
    by_cases hbr : m ≤ used
    · simp [carveBusy, hbr]; exact ⟨hcs, hused⟩
    · have hmtu : Mult6 (min (min b.start pe - cs) (m - used)) :=
        mult6_min (mult6_sub (mult6_min hb.1 hpe) hcs) (mult6_sub hm hused)
      have hcs'' : Mult6 (max cs b.stop) := mult6_max hcs hb.2
      by_cases h1 : cs < b.start
      · by_cases h2 : (60:ℚ) ≤ min (min b.start pe - cs) (m - used)
        · rw [show carveBusy m pe (b :: rest) cs used [] =
              carveBusy m pe rest (max cs b.stop)
                (used + min (min b.start pe - cs) (m - used))
                ([⟨cs, cs + min (min b.start pe - cs) (m - used)⟩]) by
            simp only [carveBusy, if_neg hbr, if_pos h1, if_pos h2]; simp]
          rw [carveBusy_acc]
          obtain ⟨a1, a2, a3⟩ := ih hbs' (max cs b.stop)
            (used + min (min b.start pe - cs) (m - used)) hcs'' (mult6_add hused hmtu)
          refine ⟨?_, a2, a3⟩
          intro s hs
          rcases List.mem_append.mp hs with hs | hs
          · rcases List.mem_singleton.mp hs with rfl
            exact ⟨hcs, mult6_add hcs hmtu⟩
          · exact a1 s hs
        · rw [show carveBusy m pe (b :: rest) cs used [] =
              carveBusy m pe rest (max cs b.stop) used [] by
            simp only [carveBusy, if_neg hbr, if_pos h1, if_neg h2]]
          exact ih hbs' _ _ hcs'' hused
      · rw [show carveBusy m pe (b :: rest) cs used [] =
            carveBusy m pe rest (max cs b.stop) used [] by
          simp only [carveBusy, if_neg hbr, if_neg h1]]
        exact ih hbs' _ _ hcs'' hused

/-- Either the final cursor of `carveBusy` has passed the end of every busy
period, or the minute budget was exhausted (a `break` occurred). -/
theorem carveBusy_final_cursor (m pe : ℚ) (bs : List TimeRange) :
    ∀ (cs used : ℚ),
      (∀ b ∈ bs, b.stop ≤ (carveBusy m pe bs cs used []).2.1)
      ∨ m ≤ (carveBusy m pe bs cs used []).2.2 := by
  induction bs with
  | nil => intro cs used; left; simp
  | cons b rest ih =>
    intro cs used
    by_cases hbr : m ≤ used
    · right; simp [carveBusy, hbr]
    · have hstep : ∀ (used' : ℚ),
          (∀ b' ∈ rest, b'.stop ≤ (carveBusy m pe rest (max cs b.stop) used' []).2.1)
          ∨ m ≤ (carveBusy m pe rest (max cs b.stop) used' []).2.2 := fun used' =>
        ih (max cs b.stop) used'
      have hb : b.stop ≤ max cs b.stop := le_max_right _ _
      have hcur : ∀ (used' : ℚ),
          max cs b.stop ≤ (carveBusy m pe rest (max cs b.stop) used' []).2.1 :=
        fun used' => (carveBusy_mem m pe rest _ used').2
      by_cases h1 : cs < b.start
      · by_cases h2 : (60:ℚ) ≤ min (min b.start pe - cs) (m - used)
        · rw [show carveBusy m pe (b :: rest) cs used [] =
              carveBusy m pe rest (max cs b.stop)
                (used + min (min b.start pe - cs) (m - used))
                ([⟨cs, cs + min (min b.start pe - cs) (m - used)⟩]) by
            simp only [carveBusy, if_neg hbr, if_pos h1, if_pos h2]; simp]
          rw [carveBusy_acc]
          rcases hstep (used + min (min b.start pe - cs) (m - used)) with h | h
          · left
            intro b' hb'
            rcases List.mem_cons.mp hb' with rfl | hb'
            · exact le_trans hb (hcur _)
            · exact h b' hb'
          · right; exact h
        · rw [show carveBusy m pe (b :: rest) cs used [] =
              carveBusy m pe rest (max cs b.stop) used [] by
            simp only [carveBusy, if_neg hbr, if_pos h1, if_neg h2]]
          rcases hstep used with h | h
          · left
            intro b' hb'
            rcases List.mem_cons.mp hb' with rfl | hb'
            · exact le_trans hb (hcur _)
            · exact h b' hb'
          · right; exact h
      · rw [show carveBusy m pe (b :: rest) cs used [] =
            carveBusy m pe rest (max cs b.stop) used [] by
          simp only [carveBusy, if_neg hbr, if_neg h1]]
        rcases hstep used with h | h
        · left
          intro b' hb'
          rcases List.mem_cons.mp hb' with rfl | hb'
          · exact le_trans hb (hcur _)
          · exact h b' hb'
        · right; exact h

theorem processPeriod_acc (m : ℚ) (busy : List TimeRange) (p : TimeRange)
    (used : ℚ) (acc : List TimeRange) :
    processPeriod m busy p used acc =
      ((acc ++ (processPeriod m busy p used []).1),
        (processPeriod m busy p used []).2) := by
  unfold processPeriod
  by_cases hob : (busy.filter (fun b => overlapsPeriod p b)).isEmpty
  · simp only [hob, if_true]
    by_cases h2 : (60:ℚ) ≤ min (p.stop - p.start) (m - used)
    · simp [h2]
    · simp [h2]
  · simp only [hob, if_false, Bool.false_eq_true]
    rw [carveBusy_acc m p.stop _ p.start used acc]
    by_cases hc : (carveBusy m p.stop
        (List.insertionSort startLE (busy.filter (fun b => overlapsPeriod p b)))
        p.start used []).2.1 < p.stop ∧
        (carveBusy m p.stop
          (List.insertionSort startLE (busy.filter (fun b => overlapsPeriod p b)))
          p.start used []).2.2 < m
    · simp only [hc, if_true, and_true]
      by_cases h2 : (60:ℚ) ≤ min (p.stop - (carveBusy m p.stop
          (List.insertionSort startLE (busy.filter (fun b => overlapsPeriod p b)))
          p.start used []).2.1) (m - (carveBusy m p.stop
          (List.insertionSort startLE (busy.filter (fun b => overlapsPeriod p b)))
          p.start used []).2.2)
      · simp [h2, hc]
      · simp [h2, hc]
    · simp [hc]

theorem overlapsPeriod_iff {p b : TimeRange} :
    overlapsPeriod p b = true ↔ (b.start < p.stop ∧ p.start < b.stop) := by
  simp [overlapsPeriod]

theorem mem_sortedBusy {l : List TimeRange} {b : TimeRange} :
    b ∈ List.insertionSort startLE l ↔ b ∈ l :=
  (List.perm_insertionSort startLE l).mem_iff

theorem processPeriod_used (m : ℚ) (busy : List TimeRange) (p : TimeRange)
    (used : ℚ) :
    (processPeriod m busy p used []).2 =
        used + slotMinutes (processPeriod m busy p used []).1
      ∧ used ≤ (processPeriod m busy p used []).2
      ∧ (used ≤ m → (processPeriod m busy p used []).2 ≤ m) := by
  unfold processPeriod
  by_cases hob : (busy.filter (fun b => overlapsPeriod p b)).isEmpty
  · simp only [hob, if_true]
    by_cases h2 : (60:ℚ) ≤ min (p.stop - p.start) (m - used)
    · have hmr : min (p.stop - p.start) (m - used) ≤ m - used := min_le_right _ _
      simp only [h2, if_true, if_pos h2]
      refine ⟨by simp [slotMinutes], by linarith, fun h => by linarith⟩
    · simp only [if_neg h2]
      exact ⟨by simp [slotMinutes], le_refl _, fun h => h⟩
  · simp only [hob, if_false, Bool.false_eq_true]
    obtain ⟨u1, u2, u3⟩ := carveBusy_used m p.stop
      (List.insertionSort startLE (busy.filter (fun b => overlapsPeriod p b))) p.start used
    set R := carveBusy m p.stop
      (List.insertionSort startLE (busy.filter (fun b => overlapsPeriod p b)))
      p.start used [] with hR
    by_cases hc : R.2.1 < p.stop ∧ R.2.2 < m
    · simp only [hc, and_true, if_true, if_pos hc]
      by_cases h2 : (60:ℚ) ≤ min (p.stop - R.2.1) (m - R.2.2)
      · have hmr : min (p.stop - R.2.1) (m - R.2.2) ≤ m - R.2.2 := min_le_right _ _
        simp only [if_pos h2]
        refine ⟨?_, by linarith, fun h => by linarith⟩
        simp only [slotMinutes, List.map_append, List.sum_append, List.map_cons,
          List.map_nil, List.sum_cons, List.sum_nil]
        rw [u1]
        simp [slotMinutes]
        ring
      · simp only [if_neg h2]
        exact ⟨u1, u2, u3⟩
    · simp only [if_neg hc]
      exact ⟨u1, u2, u3⟩

theorem processPeriod_mem (m : ℚ) (busy : List TimeRange) (p : TimeRange)
    (used : ℚ) :
    ∀ s ∈ (processPeriod m busy p used []).1,
      p.start ≤ s.start ∧ s.stop ≤ p.stop ∧ 60 ≤ s.stop - s.start := by
  unfold processPeriod
  by_cases hob : (busy.filter (fun b => overlapsPeriod p b)).isEmpty
  · simp only [hob, if_true]
    by_cases h2 : (60:ℚ) ≤ min (p.stop - p.start) (m - used)
    · have hml : min (p.stop - p.start) (m - used) ≤ p.stop - p.start := min_le_left _ _
      simp only [if_pos h2]
      intro s hs
      rcases List.mem_singleton.mp (by simpa using hs) with rfl
      exact ⟨le_refl _, by simp only; linarith, by simp only; linarith⟩
    · simp only [if_neg h2]
      intro s hs
      simp at hs
  · simp only [hob, if_false, Bool.false_eq_true]
    obtain ⟨hmem, hcur⟩ := carveBusy_mem m p.stop
      (List.insertionSort startLE (busy.filter (fun b => overlapsPeriod p b))) p.start used
    set R := carveBusy m p.stop
      (List.insertionSort startLE (busy.filter (fun b => overlapsPeriod p b)))
      p.start used [] with hR
    by_cases hc : R.2.1 < p.stop ∧ R.2.2 < m
    · simp only [if_pos hc]
      by_cases h2 : (60:ℚ) ≤ min (p.stop - R.2.1) (m - R.2.2)
      · have hml : min (p.stop - R.2.1) (m - R.2.2) ≤ p.stop - R.2.1 := min_le_left _ _
        simp only [if_pos h2]
        intro s hs
        rcases List.mem_append.mp hs with hs | hs
        · obtain ⟨a1, a2, a3⟩ := hmem s hs
          exact ⟨a1, a2, a3⟩
        · rcases List.mem_singleton.mp hs with rfl
          refine ⟨hcur, by simp only; linarith, by simp only; linarith⟩
      · simp only [if_neg h2]
        exact fun s hs => hmem s hs
    · simp only [if_neg hc]
      exact fun s hs => hmem s hs

theorem processPeriod_busy_disjoint (m : ℚ) (busy : List TimeRange)
    (p : TimeRange) (used : ℚ) :
    ∀ s ∈ (processPeriod m busy p used []).1, ∀ b ∈ busy, ¬ overlapR s b := by
  intro s hs b hb
  by_cases hover : overlapsPeriod p b = true
  · have hbmem : b ∈ busy.filter (fun b => overlapsPeriod p b) :=
      List.mem_filter.mpr ⟨hb, hover⟩
    have hbobs : b ∈ List.insertionSort startLE
        (busy.filter (fun b => overlapsPeriod p b)) := mem_sortedBusy.mpr hbmem
    revert hs
    unfold processPeriod
    by_cases hob : (busy.filter (fun b => overlapsPeriod p b)).isEmpty
    · rw [List.isEmpty_iff] at hob
      rw [hob] at hbmem
      cases hbmem
    · simp only [hob, if_false, Bool.false_eq_true]
      have hdisj := carveBusy_busy_disjoint m p.stop
        (List.insertionSort startLE (busy.filter (fun b => overlapsPeriod p b)))
        (List.sorted_insertionSort startLE _) p.start used
      have hfinal := carveBusy_final_cursor m p.stop
        (List.insertionSort startLE (busy.filter (fun b => overlapsPeriod p b)))
        p.start used
      set R := carveBusy m p.stop
        (List.insertionSort startLE (busy.filter (fun b => overlapsPeriod p b)))
        p.start used [] with hR
      by_cases hc : R.2.1 < p.stop ∧ R.2.2 < m
      · simp only [if_pos hc]
        by_cases h2 : (60:ℚ) ≤ min (p.stop - R.2.1) (m - R.2.2)
        · simp only [if_pos h2]
          intro hs
          rcases List.mem_append.mp hs with hs | hs
          · exact hdisj s hs b hbobs
          · rcases List.mem_singleton.mp hs with rfl
            rcases hfinal with hf | hf
            · exact not_overlapR_right (hf b hbobs)
            · exact absurd hc.2 (not_lt.mpr hf)
        · simp only [if_neg h2]
          exact fun hs => hdisj s hs b hbobs
      · simp only [if_neg hc]
        exact fun hs => hdisj s hs b hbobs
  · have hnot : ¬ (b.start < p.stop ∧ p.start < b.stop) := fun h =>
      hover (overlapsPeriod_iff.mpr h)
    push_neg at hnot
    obtain ⟨h1, h2, _⟩ := processPeriod_mem m busy p used s hs
    by_cases hcase : p.stop ≤ b.start
    · exact not_overlapR_left (le_trans h2 hcase)
    · exact not_overlapR_right (le_trans (hnot (not_le.mp hcase)) h1)

theorem processPeriod_ordered (m : ℚ) (busy : List TimeRange) (p : TimeRange)
    (hwf : ∀ b ∈ busy, b.start < b.stop) (used : ℚ) :
    List.Pairwise (fun s t : TimeRange => s.stop ≤ t.start)
      (processPeriod m busy p used []).1 := by
  unfold processPeriod
  by_cases hob : (busy.filter (fun b => overlapsPeriod p b)).isEmpty
  · simp only [hob, if_true]
    by_cases h2 : (60:ℚ) ≤ min (p.stop - p.start) (m - used)
    · simp only [if_pos h2]
      exact List.pairwise_singleton _ _
    · simp only [if_neg h2]
      exact List.Pairwise.nil
  · simp only [hob, if_false, Bool.false_eq_true]
    have hwfobs : ∀ b ∈ List.insertionSort startLE
        (busy.filter (fun b => overlapsPeriod p b)), b.start < b.stop :=
      fun b hb => hwf b (List.mem_filter.mp (mem_sortedBusy.mp hb)).1
    obtain ⟨o1, o2⟩ := carveBusy_ordered m p.stop
      (List.insertionSort startLE (busy.filter (fun b => overlapsPeriod p b)))
      hwfobs p.start used
    set R := carveBusy m p.stop
      (List.insertionSort startLE (busy.filter (fun b => overlapsPeriod p b)))
      p.start used [] with hR
    by_cases hc : R.2.1 < p.stop ∧ R.2.2 < m
    · simp only [if_pos hc]
      by_cases h2 : (60:ℚ) ≤ min (p.stop - R.2.1) (m - R.2.2)
      · simp only [if_pos h2]
        refine List.pairwise_append.mpr ⟨o1, List.pairwise_singleton _ _, ?_⟩
        intro s hs t ht
        rcases List.mem_singleton.mp ht with rfl
        exact o2 s hs
      · simp only [if_neg h2]
        exact o1
    · simp only [if_neg hc]
      exact o1

theorem processPeriod_aligned (m : ℚ) (busy : List TimeRange) (p : TimeRange)
    (hm : Mult6 m) (hp1 : Mult6 p.start) (hp2 : Mult6 p.stop)
    (hbusy : ∀ b ∈ busy, Mult6 b.start ∧ Mult6 b.stop) (used : ℚ)
    (hused : Mult6 used) :
    (∀ s ∈ (processPeriod m busy p used []).1, Mult6 s.start ∧ Mult6 s.stop)
      ∧ Mult6 (processPeriod m busy p used []).2 := by
  unfold processPeriod
  by_cases hob : (busy.filter (fun b => overlapsPeriod p b)).isEmpty
  · simp only [hob, if_true]
    have hmtu : Mult6 (min (p.stop - p.start) (m - used)) :=
      mult6_min (mult6_sub hp2 hp1) (mult6_sub hm hused)
    by_cases h2 : (60:ℚ) ≤ min (p.stop - p.start) (m - used)
    · simp only [if_pos h2]
      refine ⟨?_, mult6_add hused hmtu⟩
      intro s hs
      rcases List.mem_singleton.mp (by simpa using hs) with rfl
      exact ⟨hp1, mult6_add hp1 hmtu⟩
    · simp only [if_neg h2]
      exact ⟨fun s hs => by simp at hs, hused⟩
  · simp only [hob, if_false, Bool.false_eq_true]
    have hbobs : ∀ b ∈ List.insertionSort startLE
        (busy.filter (fun b => overlapsPeriod p b)), Mult6 b.start ∧ Mult6 b.stop :=
      fun b hb => hbusy b (List.mem_filter.mp (mem_sortedBusy.mp hb)).1
    obtain ⟨a1, a2, a3⟩ := carveBusy_aligned m p.stop
      (List.insertionSort startLE (busy.filter (fun b => overlapsPeriod p b)))
      hm hp2 hbobs p.start used hp1 hused
    set R := carveBusy m p.stop
      (List.insertionSort startLE (busy.filter (fun b => overlapsPeriod p b)))
      p.start used [] with hR
    by_cases hc : R.2.1 < p.stop ∧ R.2.2 < m
    · simp only [if_pos hc]
      have hmtu : Mult6 (min (p.stop - R.2.1) (m - R.2.2)) :=
        mult6_min (mult6_sub hp2 a2) (mult6_sub hm a3)
      by_cases h2 : (60:ℚ) ≤ min (p.stop - R.2.1) (m - R.2.2)
      · simp only [if_pos h2]
        refine ⟨?_, mult6_add a3 hmtu⟩
        intro s hs
        rcases List.mem_append.mp hs with hs | hs
        · exact a1 s hs
        · rcases List.mem_singleton.mp hs with rfl
          exact ⟨a2, mult6_add a2 hmtu⟩
      · simp only [if_neg h2]
        exact ⟨a1, a3⟩
    · simp only [if_neg hc]
      exact ⟨a1, a3⟩

theorem slotsLoop_acc (m : ℚ) (busy : List TimeRange) (ps : List TimeRange) :
    ∀ (used : ℚ) (acc : List TimeRange),
      slotsLoop m busy ps used acc = acc ++ slotsLoop m busy ps used [] := by
  induction ps with
  | nil => intro used acc; simp [slotsLoop]
  | cons p rest ih =>
    intro used acc
    by_cases hbr : m ≤ used
    · simp [slotsLoop, hbr]
    · simp only [slotsLoop, if_neg hbr]
      rw [processPeriod_acc m busy p used acc, processPeriod_acc m busy p used []]
      simp only [List.nil_append]
      rw [ih _ (acc ++ (processPeriod m busy p used []).1),
        ih _ ((processPeriod m busy p used []).1)]
      simp

theorem slotsLoop_minutes (m : ℚ) (busy : List TimeRange) (ps : List TimeRange) :
    ∀ (used : ℚ), used ≤ m →
      slotMinutes (slotsLoop m busy ps used []) ≤ m - used := by
  induction ps with
  | nil => intro used h; simp [slotsLoop, slotMinutes]; linarith
  | cons p rest ih =>
    intro used h
    by_cases hbr : m ≤ used
    · simp [slotsLoop, hbr, slotMinutes]
      linarith
    · simp only [slotsLoop, if_neg hbr]
      rw [processPeriod_acc m busy p used [], List.nil_append]
      rw [slotsLoop_acc]
      obtain ⟨u1, u2, u3⟩ := processPeriod_used m busy p used
      have ihr := ih (processPeriod m busy p used []).2 (u3 h)
      simp only [slotMinutes, List.map_append, List.sum_append] at ihr ⊢
      have e1 : ((processPeriod m busy p used []).1.map (fun s => s.stop - s.start)).sum =
          (processPeriod m busy p used []).2 - used := by
        rw [u1]; simp [slotMinutes]
      linarith

theorem slotsLoop_mem (m : ℚ) (busy : List TimeRange) (ps : List TimeRange) :
    ∀ (used : ℚ), ∀ s ∈ slotsLoop m busy ps used [],
      ∃ p ∈ ps, p.start ≤ s.start ∧ s.stop ≤ p.stop ∧ 60 ≤ s.stop - s.start := by
  induction ps with
  | nil => intro used s hs; simp [slotsLoop] at hs
  | cons p rest ih =>
    intro used s hs
    by_cases hbr : m ≤ used
    · simp [slotsLoop, hbr] at hs
    · rw [show slotsLoop m busy (p :: rest) used [] =
          (processPeriod m busy p used []).1 ++
            slotsLoop m busy rest (processPeriod m busy p used []).2 [] by
        simp only [slotsLoop, if_neg hbr]
        rw [processPeriod_acc m busy p used [], List.nil_append, slotsLoop_acc]] at hs
      rcases List.mem_append.mp hs with hs | hs
      · exact ⟨p, List.mem_cons_self _ _, processPeriod_mem m busy p used s hs⟩
      · obtain ⟨q, hq, hqs⟩ := ih _ s hs
        exact ⟨q, List.mem_cons_of_mem _ hq, hqs⟩

theorem slotsLoop_busy_disjoint (m : ℚ) (busy : List TimeRange)
    (ps : List TimeRange) :
    ∀ (used : ℚ), ∀ s ∈ slotsLoop m busy ps used [], ∀ b ∈ busy,
      ¬ overlapR s b := by
  induction ps with
  | nil => intro used s hs; simp [slotsLoop] at hs
  | cons p rest ih =>
    intro used s hs b hb
    by_cases hbr : m ≤ used
    · simp [slotsLoop, hbr] at hs
    · rw [show slotsLoop m busy (p :: rest) used [] =
          (processPeriod m busy p used []).1 ++
            slotsLoop m busy rest (processPeriod m busy p used []).2 [] by
        simp only [slotsLoop, if_neg hbr]
        rw [processPeriod_acc m busy p used [], List.nil_append, slotsLoop_acc]] at hs
      rcases List.mem_append.mp hs with hs | hs
      · exact processPeriod_busy_disjoint m busy p used s hs b hb
      · exact ih _ s hs b hb

theorem slotsLoop_pairwise (m : ℚ) (busy : List TimeRange)
    (hwf : ∀ b ∈ busy, b.start < b.stop) (ps : List TimeRange)
    (hps : List.Pairwise (fun p q : TimeRange => ¬ overlapR p q) ps) :
    ∀ (used : ℚ),
      List.Pairwise (fun s t : TimeRange => ¬ overlapR s t)
        (slotsLoop m busy ps used []) := by
  induction ps with
  | nil => intro used; simp [slotsLoop]
  | cons p rest ih =>
    obtain ⟨hhead, htail⟩ := List.pairwise_cons.mp hps
    intro used
    by_cases hbr : m ≤ used
    · simp [slotsLoop, hbr]
    · rw [show slotsLoop m busy (p :: rest) used [] =
          (processPeriod m busy p used []).1 ++
            slotsLoop m busy rest (processPeriod m busy p used []).2 [] by
        simp only [slotsLoop, if_neg hbr]
        rw [processPeriod_acc m busy p used [], List.nil_append, slotsLoop_acc]]
      refine List.pairwise_append.mpr ⟨?_, ih htail _, ?_⟩
      · exact (processPeriod_ordered m busy p hwf used).imp (fun h => not_overlapR_left h)
      · intro s hs t ht
        obtain ⟨s1, s2, _⟩ := processPeriod_mem m busy p used s hs
        obtain ⟨q, hq, t1, t2, _⟩ := slotsLoop_mem m busy rest _ t ht
        exact not_overlapR_mono s1 s2 t1 t2 (hhead q hq)

theorem slotsLoop_aligned (m : ℚ) (busy : List TimeRange)
    (hm : Mult6 m) (hbusy : ∀ b ∈ busy, Mult6 b.start ∧ Mult6 b.stop)
    (ps : List TimeRange) (hps : ∀ p ∈ ps, Mult6 p.start ∧ Mult6 p.stop) :
    ∀ (used : ℚ), Mult6 used → ∀ s ∈ slotsLoop m busy ps used [],
      Mult6 s.start ∧ Mult6 s.stop := by
  induction ps with
  | nil => intro used _ s hs; simp [slotsLoop] at hs
  | cons p rest ih =>
    have hp := hps p (List.mem_cons_self _ _)
    have hps' : ∀ q ∈ rest, Mult6 q.start ∧ Mult6 q.stop :=
      fun q hq => hps q (List.mem_cons_of_mem _ hq)
    intro used hused s hs
    by_cases hbr : m ≤ used
    · simp [slotsLoop, hbr] at hs
    · rw [show slotsLoop m busy (p :: rest) used [] =
          (processPeriod m busy p used []).1 ++
            slotsLoop m busy rest (processPeriod m busy p used []).2 [] by
        simp only [slotsLoop, if_neg hbr]
        rw [processPeriod_acc m busy p used [], List.nil_append, slotsLoop_acc]] at hs
      obtain ⟨a1, a2⟩ := processPeriod_aligned m busy p hm hp.1 hp.2 hbusy used hused
      rcases List.mem_append.mp hs with hs | hs
      · exact a1 s hs
      · exact ih hps' _ a2 s hs

theorem not_overlapR_symm {s t : TimeRange} (h : ¬ overlapR s t) :
    ¬ overlapR t s := by
  unfold overlapR at h ⊢
  rwa [max_comm, min_comm]

/-- The total minutes of the returned slots never exceed the daily cap. -/
theorem slots_minutes_le (d : ℤ) (avail : List Availability) (maxH : ℚ)
    (hmax : 0 ≤ maxH) :
    slotMinutes (getAvailableTimeSlots d avail maxH) ≤ maxH * 60 := by
  unfold getAvailableTimeSlots
  by_cases hed : (avail.filter (fun a => decide (a.day = getDayName d))).isEmpty
  · simp only [hed, if_true]
    by_cases hwd : getDayName d = .saturday ∨ getDayName d = .sunday
    · simp only [if_pos hwd, slotMinutes, List.map_cons, List.map_nil, List.sum_cons,
        List.sum_nil]
      have : min 6 maxH ≤ maxH := min_le_right _ _
      nlinarith
    · simp only [if_neg hwd, slotMinutes, List.map_cons, List.map_nil, List.sum_cons,
        List.sum_nil]
      have : min 8 maxH ≤ maxH := min_le_right _ _
      nlinarith
  · simp only [hed, if_false, Bool.false_eq_true]
    refine le_trans (slotsLoop_minutes (maxH * 60) _ _ 0 (by nlinarith)) ?_
    linarith

/-- Every returned slot has non-negative length (when the cap is
non-negative). -/
theorem slots_len_nonneg (d : ℤ) (avail : List Availability) (maxH : ℚ)
    (hmax : 0 ≤ maxH) :
    ∀ s ∈ getAvailableTimeSlots d avail maxH, 0 ≤ s.stop - s.start := by
  unfold getAvailableTimeSlots
  by_cases hed : (avail.filter (fun a => decide (a.day = getDayName d))).isEmpty
  · simp only [hed, if_true]
    by_cases hwd : getDayName d = .saturday ∨ getDayName d = .sunday
    · simp only [if_pos hwd]
      intro s hs
      rcases List.mem_singleton.mp hs with rfl
      have : (0:ℚ) ≤ min 6 maxH := le_min (by norm_num) hmax
      simp only
      nlinarith
    · simp only [if_neg hwd]
      intro s hs
      rcases List.mem_singleton.mp hs with rfl
      have : (0:ℚ) ≤ min 8 maxH := le_min (by norm_num) hmax
      simp only
      nlinarith
  · simp only [hed, if_false, Bool.false_eq_true]
    intro s hs
    obtain ⟨p, _, _, _, h60⟩ := slotsLoop_mem _ _ _ 0 s hs
    linarith

/-- No returned slot intersects a busy availability interval of the matching
weekday. -/
theorem slots_busy_disjoint (d : ℤ) (avail : List Availability) (maxH : ℚ) :
    ∀ s ∈ getAvailableTimeSlots d avail maxH, ∀ a ∈ avail,
      a.day = getDayName d → a.available = false →
      ¬ overlapR s ⟨(a.start_time : ℚ), (a.end_time : ℚ)⟩ := by
  intro s hs a ha hday hbusy
  revert hs
  unfold getAvailableTimeSlots
  by_cases hed : (avail.filter (fun a => decide (a.day = getDayName d))).isEmpty
  · exfalso
    rw [List.isEmpty_iff] at hed
    have : a ∈ avail.filter (fun a => decide (a.day = getDayName d)) :=
      List.mem_filter.mpr ⟨ha, by simp [hday]⟩
    rw [hed] at this
    cases this
  · simp only [hed, if_false, Bool.false_eq_true]
    intro hs
    refine slotsLoop_busy_disjoint _ _ _ 0 s hs
      ⟨(a.start_time : ℚ), (a.end_time : ℚ)⟩ ?_
    rw [mem_sortedBusy]
    refine List.mem_map.mpr ⟨a, ?_, rfl⟩
    refine List.mem_filter.mpr ⟨List.mem_filter.mpr ⟨ha, by simp [hday]⟩, by simp [hbusy]⟩

/-- With well-formed intervals and pairwise disjoint open intervals, the
returned slots are pairwise disjoint. -/
theorem slots_pairwise (d : ℤ) (avail : List Availability) (maxH : ℚ)
    (hwfI : WFIntervals avail) (hod : OpenDisjoint avail) :
    List.Pairwise (fun s t : TimeRange => ¬ overlapR s t)
      (getAvailableTimeSlots d avail maxH) := by
  unfold getAvailableTimeSlots
  by_cases hed : (avail.filter (fun a => decide (a.day = getDayName d))).isEmpty
  · simp only [hed, if_true]
    by_cases hwd : getDayName d = .saturday ∨ getDayName d = .sunday
    · simp only [if_pos hwd]
      exact List.pairwise_singleton _ _
    · simp only [if_neg hwd]
      exact List.pairwise_singleton _ _
  · simp only [hed, if_false, Bool.false_eq_true]
    refine slotsLoop_pairwise _ _ ?_ _ ?_ 0
    · intro b hb
      rw [mem_sortedBusy] at hb
      obtain ⟨a, ha, rfl⟩ := List.mem_map.mp hb
      have := hwfI a (List.mem_filter.mp (List.mem_filter.mp ha).1).1
      show ((a.start_time : ℕ) : ℚ) < ((a.end_time : ℕ) : ℚ)
      exact_mod_cast this
    · have h1 : List.Pairwise (fun a b : Availability => a.day = b.day →
          a.available = true → b.available = true →
          ¬ (max a.start_time b.start_time < min a.end_time b.end_time))
          ((avail.filter (fun a => decide (a.day = getDayName d))).filter
            (fun a => a.available)) :=
        (hod.filter _).filter _
      have h2 : List.Pairwise (fun s t : TimeRange => ¬ overlapR s t)
          (((avail.filter (fun a => decide (a.day = getDayName d))).filter
            (fun a => a.available)).map
            (fun a => TimeRange.mk (a.start_time : ℚ) (a.end_time : ℚ))) := by
        rw [List.pairwise_map]
        refine h1.imp_of_mem ?_
        intro a b ha hb hrel
        have hda : a.day = getDayName d := by
          have := (List.mem_filter.mp (List.mem_filter.mp ha).1).2
          simpa using this
        have hdb : b.day = getDayName d := by
          have := (List.mem_filter.mp (List.mem_filter.mp hb).1).2
          simpa using this
        have hava : a.available = true := by
          have := (List.mem_filter.mp ha).2
          simpa using this
        have havb : b.available = true := by
          have := (List.mem_filter.mp hb).2
          simpa using this
        have hnat := hrel (hda.trans hdb.symm) hava havb
        intro hc
        refine hnat ?_
        unfold overlapR at hc
        simp only at hc
        have hmax : ((max a.start_time b.start_time : ℕ) : ℚ) =
            max (a.start_time : ℚ) (b.start_time : ℚ) := by push_cast; rfl
        have hmin : ((min a.end_time b.end_time : ℕ) : ℚ) =
            min (a.end_time : ℚ) (b.end_time : ℚ) := by push_cast; rfl
        have : ((max a.start_time b.start_time : ℕ) : ℚ) <
            ((min a.end_time b.end_time : ℕ) : ℚ) := by
          rw [hmax, hmin]; exact hc
        exact_mod_cast this
      exact ((List.perm_insertionSort startLE _).pairwise_iff
        (fun h => not_overlapR_symm h)).mpr h2

/-- On aligned inputs every returned slot has bounds that are multiples of 6
minutes. -/
theorem slots_aligned (d : ℤ) (avail : List Availability) (maxH : ℚ)
    (hta : TimesAligned avail) (hq : Tenth maxH) :
    ∀ s ∈ getAvailableTimeSlots d avail maxH, Mult6 s.start ∧ Mult6 s.stop := by
  unfold getAvailableTimeSlots
  by_cases hed : (avail.filter (fun a => decide (a.day = getDayName d))).isEmpty
  · simp only [hed, if_true]
    by_cases hwd : getDayName d = .saturday ∨ getDayName d = .sunday
    · simp only [if_pos hwd]
      intro s hs
      rcases List.mem_singleton.mp hs with rfl
      refine ⟨⟨100, by norm_num⟩, ?_⟩
      exact mult6_add ⟨100, by norm_num⟩
        (mult6_mul60_of_tenth (tenth_min ⟨60, by norm_num⟩ hq))
    · simp only [if_neg hwd]
      intro s hs
      rcases List.mem_singleton.mp hs with rfl
      refine ⟨⟨90, by norm_num⟩, ?_⟩
      exact mult6_add ⟨90, by norm_num⟩
        (mult6_mul60_of_tenth (tenth_min ⟨80, by norm_num⟩ hq))
  · simp only [hed, if_false, Bool.false_eq_true]
    have hbnd : ∀ (f : Availability → Bool),
        ∀ b ∈ List.insertionSort startLE
          (((avail.filter (fun a => decide (a.day = getDayName d))).filter f).map
            (fun a => TimeRange.mk (a.start_time : ℚ) (a.end_time : ℚ))),
          Mult6 b.start ∧ Mult6 b.stop := by
      intro f b hb
      rw [mem_sortedBusy] at hb
      obtain ⟨a, ha, rfl⟩ := List.mem_map.mp hb
      have := hta a (List.mem_filter.mp (List.mem_filter.mp ha).1).1
      exact ⟨mult6_natCast this.1, mult6_natCast this.2⟩
    exact slotsLoop_aligned (maxH * 60) _ (mult6_mul60_of_tenth hq)
      (hbnd _) _ (hbnd _) 0 ⟨0, by norm_num⟩

/-! ### Properties of the daily allocator -/

theorem not_blocksOverlap_of_slots {b1 b2 : StudyBlock} {s t : TimeRange}
    (h11 : s.start ≤ b1.start_time)
    (h12 : b1.start_time + b1.duration * 60 ≤ s.stop)
    (h21 : t.start ≤ b2.start_time)
    (h22 : b2.start_time + b2.duration * 60 ≤ t.stop)
    (hst : ¬ overlapR s t) : ¬ blocksOverlap b1 b2 := by
  intro hc
  unfold blocksOverlap overlapQ at hc
  unfold overlapR at hst
  push_neg at hst
  have e1 : max s.start t.start ≤ max b1.start_time b2.start_time :=
    max_le_max h11 h21
  have e2 : min (b1.start_time + b1.duration * 60) (b2.start_time + b2.duration * 60)
      ≤ min s.stop t.stop := min_le_min h12 h22
  linarith

/-- The master specification of `scheduleTask` on 0.1-h-aligned inputs: the
cursors evolve along `SPRel` and keep their invariant; the remaining hours
stay a multiple of 0.1, decrease, and never go negative; the emitted
durations sum exactly to the decrease in remaining hours and to the total
cursor advance; and every block carries the task id and day, lasts at least
one hour, and sits between the old and new position of one cursor. -/
theorem scheduleTask_spec (day : ℤ) (tid : String) (title : Option String) :
    ∀ (sps : List SlotPos) (rem : ℚ), Tenth rem → (∀ sp ∈ sps, SPInv sp) →
      List.Forall₂ SPRel sps (scheduleTask day tid title rem sps).2.1
      ∧ (∀ sp ∈ (scheduleTask day tid title rem sps).2.1, SPInv sp)
      ∧ Tenth (scheduleTask day tid title rem sps).2.2
      ∧ (scheduleTask day tid title rem sps).2.2 ≤ rem
      ∧ (0 ≤ rem → 0 ≤ (scheduleTask day tid title rem sps).2.2)
      ∧ sumDur (scheduleTask day tid title rem sps).1
          = rem - (scheduleTask day tid title rem sps).2.2
      ∧ ((scheduleTask day tid title rem sps).2.1.map (fun sp => sp.currentTime)).sum
          = (sps.map (fun sp => sp.currentTime)).sum
            + 60 * sumDur (scheduleTask day tid title rem sps).1
      ∧ (∀ b ∈ (scheduleTask day tid title rem sps).1,
          b.task_id = tid ∧ b.day = day ∧ 1 ≤ b.duration
          ∧ BlockWitness b sps (scheduleTask day tid title rem sps).2.1) := by
  intro sps
  induction sps with
  | nil =>
    intro rem hrem _
    simp only [scheduleTask]
    exact ⟨List.Forall₂.nil, by simp, hrem, le_refl _, fun h => h,
      by simp [sumDur], by simp [sumDur], by simp⟩
  | cons sp rest ih =>
    intro rem hrem hinv
    have hinvh := hinv sp (List.mem_cons_self _ _)
    have hinvt : ∀ x ∈ rest, SPInv x := fun x hx => hinv x (List.mem_cons_of_mem _ hx)
    by_cases h0 : rem ≤ 0
    · rw [show scheduleTask day tid title rem (sp :: rest) = ([], sp :: rest, rem) by
        simp only [scheduleTask, if_pos h0]]
      exact ⟨forall₂_refl_of sprel_refl _, hinv, hrem, le_refl _, fun h => h,
        by simp [sumDur], by simp [sumDur], by simp⟩
    · by_cases h60 : sp.slot.stop - sp.currentTime < 60
      · rw [show scheduleTask day tid title rem (sp :: rest) =
            ((scheduleTask day tid title rem rest).1,
              sp :: (scheduleTask day tid title rem rest).2.1,
              (scheduleTask day tid title rem rest).2.2) by
          simp only [scheduleTask, if_neg h0, if_pos h60]]
        obtain ⟨i1, i2, i3, i4, i5, i6, i7, i8⟩ := ih rem hrem hinvt
        refine ⟨List.Forall₂.cons (sprel_refl sp) i1, ?_, i3, i4, i5, i6, ?_, ?_⟩
        · intro x hx
          rcases List.mem_cons.mp hx with rfl | hx
          · exact hinvh
          · exact i2 x hx
        · simp only [List.map_cons, List.sum_cons]
          rw [i7]
          ring
        · intro b hb
          obtain ⟨w1, w2, w3, x, hx, x', hx', hw⟩ := i8 b hb
          exact ⟨w1, w2, w3, x, List.mem_cons_of_mem _ hx,
            x', List.mem_cons_of_mem _ hx', hw⟩
      · by_cases h1 : (1:ℚ) ≤ min rem ((sp.slot.stop - sp.currentTime) / 60)
        · have hh : Tenth (min rem ((sp.slot.stop - sp.currentTime) / 60)) :=
            tenth_min hrem (tenth_div60_of_mult6 (mult6_sub hinvh.2.2.2 hinvh.2.2.1))
          have hdur : round1 (min rem ((sp.slot.stop - sp.currentTime) / 60)) =
              min rem ((sp.slot.stop - sp.currentTime) / 60) := round1_eq_of_tenth hh
          set h := min rem ((sp.slot.stop - sp.currentTime) / 60) with hhdef
          have hhle : h ≤ rem := min_le_left _ _
          have hhgap : h * 60 ≤ sp.slot.stop - sp.currentTime := by
            have : h ≤ (sp.slot.stop - sp.currentTime) / 60 := min_le_right _ _
            linarith [this]
          have hhpos : (0:ℚ) < h := lt_of_lt_of_le one_pos h1
          rw [show scheduleTask day tid title rem (sp :: rest) =
              (StudyBlock.mk tid day sp.currentTime (round1 h) title ::
                  (scheduleTask day tid title (rem - h) rest).1,
                SlotPos.mk sp.slot (sp.currentTime + h * 60) ::
                  (scheduleTask day tid title (rem - h) rest).2.1,
                (scheduleTask day tid title (rem - h) rest).2.2) by
            simp only [scheduleTask, if_neg h0, if_neg h60, ← hhdef, if_pos h1]]
          obtain ⟨i1, i2, i3, i4, i5, i6, i7, i8⟩ :=
            ih (rem - h) (tenth_sub hrem hh) hinvt
          have hcur' : sp.currentTime ≤ sp.currentTime + h * 60 := by nlinarith
          have hstop' : sp.currentTime + h * 60 ≤ sp.slot.stop := by linarith
          have hinvh' : SPInv (SlotPos.mk sp.slot (sp.currentTime + h * 60)) :=
            ⟨le_trans hinvh.1 hcur', Or.inl hstop',
              mult6_add hinvh.2.2.1 (mult6_mul60_of_tenth hh), hinvh.2.2.2⟩
          refine ⟨?_, ?_, i3, le_trans i4 (by linarith), fun hr => i5 (by linarith),
            ?_, ?_, ?_⟩
          · exact List.Forall₂.cons ⟨rfl, hcur', Or.inr hstop'⟩ i1
          · intro x hx
            rcases List.mem_cons.mp hx with rfl | hx
            · exact hinvh'
            · exact i2 x hx
          · simp only [sumDur, List.map_cons, List.sum_cons]
            rw [hdur]
            have := i6
            simp only [sumDur] at this
            rw [this]
            ring
          · simp only [List.map_cons, List.sum_cons]
            rw [i7]
            simp only [sumDur, List.map_cons, List.sum_cons, hdur]
            ring
          · intro b hb
            rcases List.mem_cons.mp hb with rfl | hb
            · refine ⟨rfl, rfl, by rw [hdur]; exact h1, ?_⟩
              refine ⟨sp, List.mem_cons_self _ _,
                SlotPos.mk sp.slot (sp.currentTime + h * 60), List.mem_cons_self _ _,
                rfl, hinvh.1, le_refl _, ?_, hstop'⟩
              rw [hdur]
            · obtain ⟨w1, w2, w3, x, hx, x', hx', hw⟩ := i8 b hb
              exact ⟨w1, w2, w3, x, List.mem_cons_of_mem _ hx,
                x', List.mem_cons_of_mem _ hx', hw⟩
        · rw [show scheduleTask day tid title rem (sp :: rest) =
              ((scheduleTask day tid title rem rest).1,
                sp :: (scheduleTask day tid title rem rest).2.1,
                (scheduleTask day tid title rem rest).2.2) by
            simp only [scheduleTask, if_neg h0, if_neg h60, if_neg h1]]
          obtain ⟨i1, i2, i3, i4, i5, i6, i7, i8⟩ := ih rem hrem hinvt
          refine ⟨List.Forall₂.cons (sprel_refl sp) i1, ?_, i3, i4, i5, i6, ?_, ?_⟩
          · intro x hx
            rcases List.mem_cons.mp hx with rfl | hx
            · exact hinvh
            · exact i2 x hx
          · simp only [List.map_cons, List.sum_cons]
            rw [i7]
            ring
          · intro b hb
            obtain ⟨w1, w2, w3, x, hx, x', hx', hw⟩ := i8 b hb
            exact ⟨w1, w2, w3, x, List.mem_cons_of_mem _ hx,
              x', List.mem_cons_of_mem _ hx', hw⟩

/-- On pairwise-disjoint slots, the blocks one task receives in a day are
pairwise non-overlapping (at most one block per slot, each inside its
slot). -/
theorem scheduleTask_pairwise (day : ℤ) (tid : String) (title : Option String) :
    ∀ (sps : List SlotPos) (rem : ℚ), Tenth rem → (∀ sp ∈ sps, SPInv sp) →
      List.Pairwise (fun x y : SlotPos => ¬ overlapR x.slot y.slot) sps →
      List.Pairwise (fun b1 b2 => ¬ blocksOverlap b1 b2)
        (scheduleTask day tid title rem sps).1 := by
  intro sps
  induction sps with
  | nil => intro rem _ _ _; simp [scheduleTask]
  | cons sp rest ih =>
    intro rem hrem hinv hdisj
    have hinvh := hinv sp (List.mem_cons_self _ _)
    have hinvt : ∀ x ∈ rest, SPInv x := fun x hx => hinv x (List.mem_cons_of_mem _ hx)
    obtain ⟨hdh, hdt⟩ := List.pairwise_cons.mp hdisj
    by_cases h0 : rem ≤ 0
    · rw [show scheduleTask day tid title rem (sp :: rest) = ([], sp :: rest, rem) by
        simp only [scheduleTask, if_pos h0]]
      exact List.Pairwise.nil
    · by_cases h60 : sp.slot.stop - sp.currentTime < 60
      · rw [show scheduleTask day tid title rem (sp :: rest) =
            ((scheduleTask day tid title rem rest).1,
              sp :: (scheduleTask day tid title rem rest).2.1,
              (scheduleTask day tid title rem rest).2.2) by
          simp only [scheduleTask, if_neg h0, if_pos h60]]
        exact ih rem hrem hinvt hdt
      · by_cases h1 : (1:ℚ) ≤ min rem ((sp.slot.stop - sp.currentTime) / 60)
        · have hh : Tenth (min rem ((sp.slot.stop - sp.currentTime) / 60)) :=
            tenth_min hrem (tenth_div60_of_mult6 (mult6_sub hinvh.2.2.2 hinvh.2.2.1))
          have hdur : round1 (min rem ((sp.slot.stop - sp.currentTime) / 60)) =
              min rem ((sp.slot.stop - sp.currentTime) / 60) := round1_eq_of_tenth hh
          set h := min rem ((sp.slot.stop - sp.currentTime) / 60) with hhdef
          have hhgap : h * 60 ≤ sp.slot.stop - sp.currentTime := by
            have : h ≤ (sp.slot.stop - sp.currentTime) / 60 := min_le_right _ _
            linarith [this]
          rw [show scheduleTask day tid title rem (sp :: rest) =
              (StudyBlock.mk tid day sp.currentTime (round1 h) title ::
                  (scheduleTask day tid title (rem - h) rest).1,
                SlotPos.mk sp.slot (sp.currentTime + h * 60) ::
                  (scheduleTask day tid title (rem - h) rest).2.1,
                (scheduleTask day tid title (rem - h) rest).2.2) by
            simp only [scheduleTask, if_neg h0, if_neg h60, ← hhdef, if_pos h1]]
          refine List.pairwise_cons.mpr ⟨?_, ih (rem - h) (tenth_sub hrem hh) hinvt hdt⟩
          intro b' hb'
          obtain ⟨_, _, _, x, hx, x', hx', hslot, hws, hwc, hwe, hwstop⟩ :=
            ((scheduleTask_spec day tid title rest (rem - h)
              (tenth_sub hrem hh) hinvt).2.2.2.2.2.2.2) b' hb'
          refine not_blocksOverlap_of_slots (s := sp.slot) (t := x.slot)
            hinvh.1 ?_ hws (by linarith) (hdh x hx)
          show sp.currentTime + round1 h * 60 ≤ sp.slot.stop
          rw [hdur]
          linarith
        · rw [show scheduleTask day tid title rem (sp :: rest) =
              ((scheduleTask day tid title rem rest).1,
                sp :: (scheduleTask day tid title rem rest).2.1,
                (scheduleTask day tid title rem rest).2.2) by
            simp only [scheduleTask, if_neg h0, if_neg h60, if_neg h1]]
          exact ih rem hrem hinvt hdt

theorem taskHours_append (tid : String) (l1 l2 : List StudyBlock) :
    taskHours tid (l1 ++ l2) = taskHours tid l1 + taskHours tid l2 := by
  simp [taskHours, List.filter_append]

theorem taskHours_all {tid : String} {bs : List StudyBlock}
    (h : ∀ b ∈ bs, b.task_id = tid) : taskHours tid bs = sumDur bs := by
  unfold taskHours sumDur
  congr 1
  rw [List.filter_eq_self.mpr]
  intro b hb
  simp [h b hb]

theorem taskHours_none {tid : String} {bs : List StudyBlock}
    (h : ∀ b ∈ bs, b.task_id ≠ tid) : taskHours tid bs = 0 := by
  unfold taskHours
  rw [List.filter_eq_nil_iff.mpr]
  · simp
  · intro b hb
    simp [h b hb]

theorem dayHours_append (d : ℤ) (l1 l2 : List StudyBlock) :
    dayHours d (l1 ++ l2) = dayHours d l1 + dayHours d l2 := by
  simp [dayHours, List.filter_append]

theorem dayHours_all {d : ℤ} {bs : List StudyBlock}
    (h : ∀ b ∈ bs, b.day = d) : dayHours d bs = sumDur bs := by
  unfold dayHours sumDur
  congr 1
  rw [List.filter_eq_self.mpr]
  intro b hb
  simp [h b hb]

theorem dayHours_none {d : ℤ} {bs : List StudyBlock}
    (h : ∀ b ∈ bs, b.day ≠ d) : dayHours d bs = 0 := by
  unfold dayHours
  rw [List.filter_eq_nil_iff.mpr]
  · simp
  · intro b hb
    simp [h b hb]

theorem not_blocksOverlap_left {b1 b2 : StudyBlock}
    (h : b1.start_time + b1.duration * 60 ≤ b2.start_time) :
    ¬ blocksOverlap b1 b2 := by
  intro hc
  unfold blocksOverlap overlapQ at hc
  have e1 : min (b1.start_time + b1.duration * 60)
      (b2.start_time + b2.duration * 60) ≤ b1.start_time + b1.duration * 60 :=
    min_le_left _ _
  have e2 : b2.start_time ≤ max b1.start_time b2.start_time := le_max_right _ _
  linarith

theorem not_blocksOverlap_right {b1 b2 : StudyBlock}
    (h : b2.start_time + b2.duration * 60 ≤ b1.start_time) :
    ¬ blocksOverlap b1 b2 := by
  intro hc
  unfold blocksOverlap overlapQ at hc
  have e1 : min (b1.start_time + b1.duration * 60)
      (b2.start_time + b2.duration * 60) ≤ b2.start_time + b2.duration * 60 :=
    min_le_right _ _
  have e2 : b1.start_time ≤ max b1.start_time b2.start_time := le_max_left _ _
  linarith

/-- A block witness survives further cursor evolution. -/
theorem blockWitness_extend {b : StudyBlock} {sps mid fin : List SlotPos}
    (hw : BlockWitness b sps mid) (hf : List.Forall₂ SPRel mid fin) :
    BlockWitness b sps fin := by
  obtain ⟨x, hx, x', hx', hslot, hws, hwc, hwe, hwstop⟩ := hw
  obtain ⟨x'', hx'', hrel⟩ := forall₂_mem_left hf hx'
  refine ⟨x, hx, x'', hx'', hrel.1.trans hslot, hws, hwc, hwe.trans hrel.2.1, ?_⟩
  rcases hrel.2.2 with hc | hc
  · exact hc ▸ hwstop
  · rw [hslot] at hc
    exact hc

/-- Pairwise slot disjointness is preserved by cursor evolution. -/
theorem pairwise_slots_of_sprel {sps sps' : List SlotPos}
    (hp : List.Pairwise (fun x y : SlotPos => ¬ overlapR x.slot y.slot) sps)
    (hf : List.Forall₂ SPRel sps sps') :
    List.Pairwise (fun x y : SlotPos => ¬ overlapR x.slot y.slot) sps' := by
  have h1 : List.Pairwise (fun s t : TimeRange => ¬ overlapR s t)
      (sps.map (fun sp => sp.slot)) := List.pairwise_map.mpr hp
  rw [← sprel_map_slot hf] at h1
  exact List.pairwise_map.mp h1

theorem forall₂_mem_right {α β : Type} {R : α → β → Prop} :
    ∀ {l1 : List α} {l2 : List β}, List.Forall₂ R l1 l2 → ∀ {b}, b ∈ l2 →
      ∃ a ∈ l1, R a b
  | _, _, List.Forall₂.cons hab h12, b, hb => by
    rcases List.mem_cons.mp hb with rfl | hb
    · exact ⟨_, List.mem_cons_self _ _, hab⟩
    · obtain ⟨a, ha, hr⟩ := forall₂_mem_right h12 hb
      exact ⟨a, List.mem_cons_of_mem _ ha, hr⟩

theorem forall₂_imp_mem {α β : Type} {R S : α → β → Prop} :
    ∀ {l1 : List α} {l2 : List β}, (∀ a ∈ l1, ∀ b, R a b → S a b) →
      List.Forall₂ R l1 l2 → List.Forall₂ S l1 l2
  | _, _, _, List.Forall₂.nil => List.Forall₂.nil
  | _, _, h, List.Forall₂.cons hab h12 =>
    List.Forall₂.cons (h _ (List.mem_cons_self _ _) _ hab)
      (forall₂_imp_mem (fun a ha b => h a (List.mem_cons_of_mem _ ha) b) h12)

theorem sumDur_append (l1 l2 : List StudyBlock) :
    sumDur (l1 ++ l2) = sumDur l1 + sumDur l2 := by
  simp [sumDur]

theorem overlapR_self {s : TimeRange} : overlapR s s ↔ s.start < s.stop := by
  simp [overlapR]

theorem slotRel_symm :
    Symmetric (fun x y : SlotPos => ¬ overlapR x.slot y.slot) :=
  fun _ _ h => not_overlapR_symm h

/-- The specification of `scheduleTasks`, the loop of `generateDailyPlan`
over the priority-sorted tasks: cursors evolve along `SPRel`; the recorded
updates line up index-by-index with the processed entries, each a
non-negative multiple of 0.1 not exceeding the entry's remaining hours; the
cursor advance equals the total emitted duration; and each block belongs to
one of the listed tasks, to this day, and to one slot-cursor window. -/
theorem scheduleTasks_spec (day : ℤ) :
    ∀ (ts : List (ℕ × TaskRem)) (sps : List SlotPos),
      (∀ p ∈ ts, Tenth p.2.remaining_hours) →
      (∀ sp ∈ sps, SPInv sp) →
      List.Forall₂ SPRel sps (scheduleTasks day ts sps).2.1
      ∧ (∀ sp ∈ (scheduleTasks day ts sps).2.1, SPInv sp)
      ∧ List.Forall₂ (fun (p : ℕ × TaskRem) (u : ℕ × ℚ) =>
          u.1 = p.1 ∧ Tenth u.2 ∧ u.2 ≤ p.2.remaining_hours
          ∧ (0 ≤ p.2.remaining_hours → 0 ≤ u.2)) ts (scheduleTasks day ts sps).2.2
      ∧ ((scheduleTasks day ts sps).2.1.map (fun sp => sp.currentTime)).sum
          = (sps.map (fun sp => sp.currentTime)).sum
            + 60 * sumDur (scheduleTasks day ts sps).1
      ∧ (∀ b ∈ (scheduleTasks day ts sps).1, b.day = day ∧ 1 ≤ b.duration
          ∧ (∃ p ∈ ts, b.task_id = p.2.toTask.id)
          ∧ BlockWitness b sps (scheduleTasks day ts sps).2.1) := by
  intro ts
  induction ts with
  | nil =>
    intro sps _ hinv
    simp only [scheduleTasks]
    exact ⟨forall₂_refl_of sprel_refl _, hinv, List.Forall₂.nil,
      by simp [sumDur], by simp⟩
  | cons pt ts ih =>
    obtain ⟨i, t⟩ := pt
    intro sps hten hinv
    have htenh := hten (i, t) (List.mem_cons_self _ _)
    have htent : ∀ p ∈ ts, Tenth p.2.remaining_hours :=
      fun p hp => hten p (List.mem_cons_of_mem _ hp)
    by_cases h0 : t.remaining_hours ≤ 0
    · rw [show scheduleTasks day ((i, t) :: ts) sps =
          ((scheduleTasks day ts sps).1, (scheduleTasks day ts sps).2.1,
            (i, t.remaining_hours) :: (scheduleTasks day ts sps).2.2) by
        simp only [scheduleTasks, if_pos h0]]
      obtain ⟨i1, i2, i3, i4, i5⟩ := ih sps htent hinv
      refine ⟨i1, i2, ?_, i4, ?_⟩
      · exact List.Forall₂.cons ⟨rfl, htenh, le_refl _, fun h => h⟩ i3
      · intro b hb
        obtain ⟨w1, w2, ⟨q, hq, hqid⟩, w4⟩ := i5 b hb
        exact ⟨w1, w2, ⟨q, List.mem_cons_of_mem _ hq, hqid⟩, w4⟩
    · rw [show scheduleTasks day ((i, t) :: ts) sps =
          ((scheduleTask day t.toTask.id t.toTask.title t.remaining_hours sps).1 ++
            (scheduleTasks day ts
              (scheduleTask day t.toTask.id t.toTask.title t.remaining_hours sps).2.1).1,
            (scheduleTasks day ts
              (scheduleTask day t.toTask.id t.toTask.title t.remaining_hours sps).2.1).2.1,
            (i, (scheduleTask day t.toTask.id t.toTask.title t.remaining_hours sps).2.2) ::
            (scheduleTasks day ts
              (scheduleTask day t.toTask.id t.toTask.title t.remaining_hours sps).2.1).2.2) by
        simp only [scheduleTasks, if_neg h0]]
      obtain ⟨s1, s2, s3, s4, s5, s6, s7, s8⟩ :=
        scheduleTask_spec day t.toTask.id t.toTask.title sps t.remaining_hours
          htenh hinv
      set mid := (scheduleTask day t.toTask.id t.toTask.title t.remaining_hours sps).2.1
        with hmid
      obtain ⟨i1, i2, i3, i4, i5⟩ := ih mid htent s2
      refine ⟨forall₂_comp (R := SPRel) (S := SPRel) (T := SPRel)
        (fun _ _ _ h1 h2 => sprel_trans h1 h2) s1 i1, i2, ?_, ?_, ?_⟩
      · exact List.Forall₂.cons ⟨rfl, s3, s4, s5⟩ i3
      · rw [i4, s7, sumDur_append]
        ring
      · intro b hb
        rcases List.mem_append.mp hb with hb | hb
        · obtain ⟨w1, w2, w3, w4⟩ := s8 b hb
          exact ⟨w2, w3, ⟨(i, t), List.mem_cons_self _ _, w1⟩,
            blockWitness_extend w4 i1⟩
        · obtain ⟨w1, w2, ⟨q, hq, hqid⟩, x, hx, x', hx', hslot, hws, hwc, hwe, hwstop⟩ :=
            i5 b hb
          obtain ⟨x0, hx0, hrel⟩ := forall₂_mem_right s1 hx
          refine ⟨w1, w2, ⟨q, List.mem_cons_of_mem _ hq, hqid⟩,
            x0, hx0, x', hx', ?_, ?_, ?_, hwe, ?_⟩
          · rw [hslot, hrel.1]
          · rw [← hrel.1]
            exact hws
          · exact hrel.2.1.trans hwc
          · rw [← hrel.1]
            exact hwstop

/-- On inputs whose task ids are pairwise distinct, the blocks carrying a
given entry's id are exactly that entry's blocks, so their total duration is
the decrease in the entry's remaining hours. -/
theorem scheduleTasks_taskHours (day : ℤ) :
    ∀ (ts : List (ℕ × TaskRem)) (sps : List SlotPos),
      (∀ p ∈ ts, Tenth p.2.remaining_hours) →
      (∀ sp ∈ sps, SPInv sp) →
      List.Pairwise (fun p q : ℕ × TaskRem => p.2.toTask.id ≠ q.2.toTask.id) ts →
      List.Forall₂ (fun (p : ℕ × TaskRem) (u : ℕ × ℚ) =>
        taskHours p.2.toTask.id (scheduleTasks day ts sps).1
          = p.2.remaining_hours - u.2) ts (scheduleTasks day ts sps).2.2 := by
  intro ts
  induction ts with
  | nil =>
    intro sps _ _ _
    simp only [scheduleTasks]
    exact List.Forall₂.nil
  | cons pt ts ih =>
    obtain ⟨i, t⟩ := pt
    intro sps hten hinv hids
    have htenh := hten (i, t) (List.mem_cons_self _ _)
    have htent : ∀ p ∈ ts, Tenth p.2.remaining_hours :=
      fun p hp => hten p (List.mem_cons_of_mem _ hp)
    obtain ⟨hidh, hidt⟩ := List.pairwise_cons.mp hids
    by_cases h0 : t.remaining_hours ≤ 0
    · rw [show scheduleTasks day ((i, t) :: ts) sps =
          ((scheduleTasks day ts sps).1, (scheduleTasks day ts sps).2.1,
            (i, t.remaining_hours) :: (scheduleTasks day ts sps).2.2) by
        simp only [scheduleTasks, if_pos h0]]
      obtain ⟨_, _, _, _, i5⟩ := scheduleTasks_spec day ts sps htent hinv
      refine List.Forall₂.cons ?_ (ih sps htent hinv hidt)
      rw [taskHours_none, sub_self]
      intro b hb
      obtain ⟨_, _, ⟨q, hq, hqid⟩, _⟩ := i5 b hb
      rw [hqid]
      exact fun hc => hidh q hq hc.symm
    · rw [show scheduleTasks day ((i, t) :: ts) sps =
          ((scheduleTask day t.toTask.id t.toTask.title t.remaining_hours sps).1 ++
            (scheduleTasks day ts
              (scheduleTask day t.toTask.id t.toTask.title t.remaining_hours sps).2.1).1,
            (scheduleTasks day ts
              (scheduleTask day t.toTask.id t.toTask.title t.remaining_hours sps).2.1).2.1,
            (i, (scheduleTask day t.toTask.id t.toTask.title t.remaining_hours sps).2.2) ::
            (scheduleTasks day ts
              (scheduleTask day t.toTask.id t.toTask.title t.remaining_hours sps).2.1).2.2) by
        simp only [scheduleTasks, if_neg h0]]
      obtain ⟨s1, s2, s3, s4, s5, s6, s7, s8⟩ :=
        scheduleTask_spec day t.toTask.id t.toTask.title sps t.remaining_hours
          htenh hinv
      set mid := (scheduleTask day t.toTask.id t.toTask.title t.remaining_hours sps).2.1
        with hmid
      obtain ⟨_, _, _, _, i5⟩ := scheduleTasks_spec day ts mid htent s2
      have hother : ∀ b ∈ (scheduleTasks day ts mid).1, b.task_id ≠ t.toTask.id := by
        intro b hb
        obtain ⟨_, _, ⟨q, hq, hqid⟩, _⟩ := i5 b hb
        rw [hqid]
        exact fun hc => hidh q hq hc.symm
      refine List.Forall₂.cons ?_ ?_
      · rw [taskHours_append, taskHours_all (fun b hb => (s8 b hb).1),
          taskHours_none hother, add_zero, s6]
      · refine forall₂_imp_mem ?_ (ih mid htent s2 hidt)
        intro p hp u hu
        rw [taskHours_append, ← hu, taskHours_none, zero_add]
        intro b hb
        rw [(s8 b hb).1]
        exact hidh p hp

/-- On pairwise-disjoint slots, all the blocks of one day are pairwise
non-overlapping. -/
theorem scheduleTasks_pairwise (day : ℤ) :
    ∀ (ts : List (ℕ × TaskRem)) (sps : List SlotPos),
      (∀ p ∈ ts, Tenth p.2.remaining_hours) →
      (∀ sp ∈ sps, SPInv sp) →
      List.Pairwise (fun x y : SlotPos => ¬ overlapR x.slot y.slot) sps →
      List.Pairwise (fun b1 b2 => ¬ blocksOverlap b1 b2)
        (scheduleTasks day ts sps).1 := by
  intro ts
  induction ts with
  | nil =>
    intro sps _ _ _
    simp only [scheduleTasks]
    exact List.Pairwise.nil
  | cons pt ts ih =>
    obtain ⟨i, t⟩ := pt
    intro sps hten hinv hdisj
    have htenh := hten (i, t) (List.mem_cons_self _ _)
    have htent : ∀ p ∈ ts, Tenth p.2.remaining_hours :=
      fun p hp => hten p (List.mem_cons_of_mem _ hp)
    by_cases h0 : t.remaining_hours ≤ 0
    · rw [show scheduleTasks day ((i, t) :: ts) sps =
          ((scheduleTasks day ts sps).1, (scheduleTasks day ts sps).2.1,
            (i, t.remaining_hours) :: (scheduleTasks day ts sps).2.2) by
        simp only [scheduleTasks, if_pos h0]]
      exact ih sps htent hinv hdisj
    · rw [show scheduleTasks day ((i, t) :: ts) sps =
          ((scheduleTask day t.toTask.id t.toTask.title t.remaining_hours sps).1 ++
            (scheduleTasks day ts
              (scheduleTask day t.toTask.id t.toTask.title t.remaining_hours sps).2.1).1,
            (scheduleTasks day ts
              (scheduleTask day t.toTask.id t.toTask.title t.remaining_hours sps).2.1).2.1,
            (i, (scheduleTask day t.toTask.id t.toTask.title t.remaining_hours sps).2.2) ::
            (scheduleTasks day ts
              (scheduleTask day t.toTask.id t.toTask.title t.remaining_hours sps).2.1).2.2) by
        simp only [scheduleTasks, if_neg h0]]
      obtain ⟨s1, s2, s3, s4, s5, s6, s7, s8⟩ :=
        scheduleTask_spec day t.toTask.id t.toTask.title sps t.remaining_hours
          htenh hinv
      set mid := (scheduleTask day t.toTask.id t.toTask.title t.remaining_hours sps).2.1
        with hmid
      have hdisjmid : List.Pairwise (fun x y : SlotPos => ¬ overlapR x.slot y.slot) mid :=
        pairwise_slots_of_sprel hdisj s1
      obtain ⟨_, _, _, _, i5⟩ := scheduleTasks_spec day ts mid htent s2
      refine List.pairwise_append.mpr
        ⟨scheduleTask_pairwise day t.toTask.id t.toTask.title sps t.remaining_hours
          htenh hinv hdisj, ih mid htent s2 hdisjmid, ?_⟩
      intro b hb b' hb'
      obtain ⟨_, hdur1, _, x, hx, x', hx', hslot, hws, hwc, hwe, hwstop⟩ := s8 b hb
      obtain ⟨_, hdur2, _, y, hy, y', hy', hslot', hws', hwc', hwe', hwstop'⟩ :=
        i5 b' hb'
      by_cases hsame : x'.slot = y.slot
      · have hnondeg : overlapR x'.slot x'.slot := by
          rw [overlapR_self, hslot]
          have e1 : b.start_time + b.duration * 60 ≤ x.slot.stop := le_trans hwe hwstop
          have e2 : x.slot.start ≤ b.start_time := hws
          nlinarith
        have hxy := slotpos_unique hdisjmid hx' hy hsame hnondeg
        refine not_blocksOverlap_left ?_
        calc b.start_time + b.duration * 60 ≤ x'.currentTime := hwe
          _ = y.currentTime := by rw [hxy]
          _ ≤ b'.start_time := hwc'
      · have hxyne : x' ≠ y := fun hc => hsame (by rw [hc])
        have hso := List.Pairwise.forall slotRel_symm hdisjmid hx' hy hxyne
        refine not_blocksOverlap_of_slots (s := x.slot) (t := y.slot)
          hws (le_trans hwe hwstop) hws' (le_trans hwe' hwstop') ?_
        rw [← hslot]
        exact hso

/-! ### Properties of `generateDailyPlan` -/

theorem generateDailyPlan_empty {day : ℤ} {tasks : List TaskRem}
    {avail : List Availability} {maxH : ℚ}
    (h : (getAvailableTimeSlots day avail maxH).isEmpty = true) :
    generateDailyPlan day tasks avail maxH = ([], tasks) := by
  unfold generateDailyPlan
  simp only [h, if_true]

theorem generateDailyPlan_eq {day : ℤ} {tasks : List TaskRem}
    {avail : List Availability} {maxH : ℚ}
    (h : ¬ (getAvailableTimeSlots day avail maxH).isEmpty = true) :
    generateDailyPlan day tasks avail maxH =
      ((scheduleTasks day (dailySorted tasks) (dailySlotPos day avail maxH)).1,
        applyRemUpdates tasks
          (scheduleTasks day (dailySorted tasks) (dailySlotPos day avail maxH)).2.2) := by
  unfold generateDailyPlan dailySorted dailySlotPos
  simp only [h, if_false, Bool.false_eq_true]

theorem forall₂_of_mem_refl {α : Type} {R : α → α → Prop} :
    ∀ {l : List α}, (∀ a ∈ l, R a a) → List.Forall₂ R l l
  | [], _ => List.Forall₂.nil
  | a :: _, h => List.Forall₂.cons (h a (List.mem_cons_self _ _))
      (forall₂_of_mem_refl (fun b hb => h b (List.mem_cons_of_mem _ hb)))

theorem forall₂_and {α β : Type} {R S : α → β → Prop} :
    ∀ {l1 : List α} {l2 : List β}, List.Forall₂ R l1 l2 → List.Forall₂ S l1 l2 →
      List.Forall₂ (fun a b => R a b ∧ S a b) l1 l2
  | _, _, List.Forall₂.nil, List.Forall₂.nil => List.Forall₂.nil
  | _, _, List.Forall₂.cons h1 t1, List.Forall₂.cons h2 t2 =>
    List.Forall₂.cons ⟨h1, h2⟩ (forall₂_and t1 t2)

theorem forall₂_fst_eq {β γ : Type} {R : (ℕ × β) → (ℕ × γ) → Prop}
    (hR : ∀ p u, R p u → u.1 = p.1) :
    ∀ {l1 : List (ℕ × β)} {l2 : List (ℕ × γ)}, List.Forall₂ R l1 l2 →
      l2.map Prod.fst = l1.map Prod.fst
  | _, _, List.Forall₂.nil => rfl
  | _, _, List.Forall₂.cons h t => by
    simp [forall₂_fst_eq hR t, hR _ _ h]

/-- Over one day, each cursor advances by at most the length of its slot,
hence so does the total. -/
theorem forall₂_sprel_sum :
    ∀ {sps sps' : List SlotPos}, List.Forall₂ SPRel sps sps' →
      (∀ sp ∈ sps, 0 ≤ sp.slot.stop - sp.currentTime) →
      (sps'.map (fun sp => sp.currentTime)).sum
        - (sps.map (fun sp => sp.currentTime)).sum
        ≤ (sps.map (fun sp => sp.slot.stop - sp.currentTime)).sum := by
  intro sps sps' hf
  induction hf with
  | nil => intro _; simp
  | cons hab t ih =>
    intro hlen
    have h1 := hlen _ (List.mem_cons_self _ _)
    have h2 := ih (fun sp hsp => hlen sp (List.mem_cons_of_mem _ hsp))
    simp only [List.map_cons, List.sum_cons]
    rcases hab.2.2 with hc | hc
    · rw [hc]
      linarith
    · linarith

theorem pairwise_enum {α : Type} {R : α → α → Prop} {l : List α}
    (h : List.Pairwise R l) :
    List.Pairwise (fun p q : ℕ × α => R p.2 q.2) l.enum := by
  rw [List.pairwise_iff_get] at h ⊢
  intro i j hij
  have hi : (i : ℕ) < l.length := by
    have := i.isLt
    simpa using this
  have hj : (j : ℕ) < l.length := by
    have := j.isLt
    simpa using this
  have ei : l.enum.get i = ((i : ℕ), l.get ⟨i, hi⟩) := by
    rw [List.get_eq_getElem, List.getElem_enum]
    simp [List.get_eq_getElem]
  have ej : l.enum.get j = ((j : ℕ), l.get ⟨j, hj⟩) := by
    rw [List.get_eq_getElem, List.getElem_enum]
    simp [List.get_eq_getElem]
  rw [ei, ej]
  exact h ⟨i, hi⟩ ⟨j, hj⟩ hij

theorem lookup_eq_none_of_keys {k : ℕ} :
    ∀ {l : List (ℕ × ℚ)}, (∀ u ∈ l, u.1 ≠ k) → l.lookup k = none
  | [], _ => rfl
  | (k', v) :: es, h => by
    have hne : (k == k') = false := by
      refine beq_eq_false_iff_ne.mpr (fun hc => ?_)
      exact h (k', v) (List.mem_cons_self _ _) (by simp [hc])
    rw [List.lookup_cons, hne]
    exact lookup_eq_none_of_keys (fun u hu => h u (List.mem_cons_of_mem _ hu))

theorem lookup_of_mem_nodup {k : ℕ} {v : ℚ} :
    ∀ {l : List (ℕ × ℚ)}, (l.map Prod.fst).Nodup → (k, v) ∈ l →
      l.lookup k = some v
  | [], _, hm => by cases hm
  | (k', v') :: es, hn, hm => by
    rcases List.mem_cons.mp hm with heq | hm
    · obtain ⟨e1, e2⟩ := Prod.mk.injEq .. ▸ heq
      rw [List.lookup_cons]
      simp [Prod.ext_iff] at heq
      rw [heq.1]
      simp [heq.2]
    · have hk : k ≠ k' := by
        intro hc
        have : k' ∈ es.map Prod.fst := List.mem_map.mpr ⟨(k, v), hm, by simp [hc]⟩
        exact (List.nodup_cons.mp (by simpa using hn)).1 this
      rw [List.lookup_cons]
      have : (k == k') = false := beq_eq_false_iff_ne.mpr hk
      rw [this]
      exact lookup_of_mem_nodup (List.nodup_cons.mp (by simpa using hn)).2 hm

theorem mem_enum_snd {α : Type} {l : List α} {p : ℕ × α} (h : p ∈ l.enum) :
    p.2 ∈ l := by
  rw [List.mem_enum_iff_getElem?] at h
  obtain ⟨hlt, heq⟩ := List.getElem?_eq_some.mp h
  rw [← heq]
  exact List.getElem_mem hlt

theorem dailySlotPos_inv {day : ℤ} {avail : List Availability} {maxH : ℚ}
    (hta : TimesAligned avail) (hq : Tenth maxH) :
    ∀ sp ∈ dailySlotPos day avail maxH, SPInv sp := by
  intro sp hsp
  obtain ⟨s, hs, rfl⟩ := List.mem_map.mp hsp
  obtain ⟨h1, h2⟩ := slots_aligned day avail maxH hta hq s hs
  exact ⟨le_refl _, Or.inr rfl, h1, h2⟩

theorem dailySlotPos_disj {day : ℤ} {avail : List Availability} {maxH : ℚ}
    (hwfI : WFIntervals avail) (hod : OpenDisjoint avail) :
    List.Pairwise (fun x y : SlotPos => ¬ overlapR x.slot y.slot)
      (dailySlotPos day avail maxH) := by
  unfold dailySlotPos
  rw [List.pairwise_map]
  exact slots_pairwise day avail maxH hwfI hod

theorem dailySlotPos_gap_nonneg {day : ℤ} {avail : List Availability} {maxH : ℚ}
    (hmax : 0 ≤ maxH) :
    ∀ sp ∈ dailySlotPos day avail maxH, 0 ≤ sp.slot.stop - sp.currentTime := by
  intro sp hsp
  obtain ⟨s, hs, rfl⟩ := List.mem_map.mp hsp
  exact slots_len_nonneg day avail maxH hmax s hs

theorem dailySorted_perm (tasks : List TaskRem) :
    (dailySorted tasks).Perm
      (tasks.enum.filter (fun p => decide (0 < p.2.remaining_hours))) :=
  List.perm_insertionSort _ _

theorem dailySorted_mem {tasks : List TaskRem} {p : ℕ × TaskRem} :
    p ∈ dailySorted tasks ↔ p ∈ tasks.enum ∧ 0 < p.2.remaining_hours := by
  rw [(dailySorted_perm tasks).mem_iff, List.mem_filter]
  simp

theorem dailySorted_tenth {tasks : List TaskRem}
    (hten : ∀ t ∈ tasks, Tenth t.remaining_hours) :
    ∀ p ∈ dailySorted tasks, Tenth p.2.remaining_hours :=
  fun p hp => hten p.2 (mem_enum_snd (dailySorted_mem.mp hp).1)

theorem dailySorted_ids {tasks : List TaskRem}
    (hids : List.Pairwise (fun a b : TaskRem => a.toTask.id ≠ b.toTask.id) tasks) :
    List.Pairwise (fun p q : ℕ × TaskRem => p.2.toTask.id ≠ q.2.toTask.id)
      (dailySorted tasks) := by
  refine ((dailySorted_perm tasks).pairwise_iff ?_).mpr
    ((pairwise_enum hids).filter _)
  exact fun h hc => h hc.symm

theorem dailySorted_keys_nodup (tasks : List TaskRem) :
    ((dailySorted tasks).map Prod.fst).Nodup := by
  have h1 : ((tasks.enum.filter (fun p => decide (0 < p.2.remaining_hours))).map
      Prod.fst).Sublist (tasks.enum.map Prod.fst) :=
    (List.filter_sublist _).map _
  have h2 : (tasks.enum.map Prod.fst).Nodup := by
    rw [List.enum_map_fst]
    exact List.nodup_range _
  exact (((dailySorted_perm tasks).map Prod.fst).nodup_iff).mpr (h1.nodup h2)

theorem not_overlapQ_of_within {x1 y1 aS aE : ℚ} {s : TimeRange}
    (h1 : s.start ≤ x1) (h2 : y1 ≤ s.stop)
    (h : ¬ overlapR s ⟨aS, aE⟩) : ¬ overlapQ x1 y1 aS aE := by
  intro hc
  unfold overlapQ at hc
  unfold overlapR at h
  push_neg at h
  simp only at h
  have e1 : max s.start aS ≤ max x1 aS := max_le_max h1 (le_refl _)
  have e2 : min y1 aE ≤ min s.stop aE := min_le_min h2 (le_refl _)
  linarith

/-- Every block of a daily plan belongs to this day, lasts at least one hour
and references one of the given tasks. -/
theorem generateDailyPlan_blocks {day : ℤ} {tasks : List TaskRem}
    {avail : List Availability} {maxH : ℚ}
    (hta : TimesAligned avail) (hq : Tenth maxH)
    (hten : ∀ t ∈ tasks, Tenth t.remaining_hours) :
    ∀ b ∈ (generateDailyPlan day tasks avail maxH).1,
      b.day = day ∧ 1 ≤ b.duration ∧ ∃ t ∈ tasks, b.task_id = t.toTask.id := by
  by_cases h : (getAvailableTimeSlots day avail maxH).isEmpty = true
  · rw [generateDailyPlan_empty h]
    intro b hb
    cases hb
  · rw [generateDailyPlan_eq h]
    intro b hb
    obtain ⟨_, _, _, _, i5⟩ := scheduleTasks_spec day (dailySorted tasks)
      (dailySlotPos day avail maxH) (dailySorted_tenth hten)
      (dailySlotPos_inv hta hq)
    obtain ⟨w1, w2, ⟨q, hq2, hqid⟩, _⟩ := i5 b hb
    exact ⟨w1, w2, ⟨q.2, mem_enum_snd (dailySorted_mem.mp hq2).1, hqid⟩⟩

/-- The total duration of a day's blocks never exceeds the daily cap. -/
theorem generateDailyPlan_sumDur {day : ℤ} {tasks : List TaskRem}
    {avail : List Availability} {maxH : ℚ}
    (hta : TimesAligned avail) (hq : Tenth maxH) (hmax : 0 ≤ maxH)
    (hten : ∀ t ∈ tasks, Tenth t.remaining_hours) :
    sumDur (generateDailyPlan day tasks avail maxH).1 ≤ maxH := by
  by_cases h : (getAvailableTimeSlots day avail maxH).isEmpty = true
  · rw [generateDailyPlan_empty h]
    simpa [sumDur] using hmax
  · rw [generateDailyPlan_eq h]
    obtain ⟨i1, _, _, i4, _⟩ := scheduleTasks_spec day (dailySorted tasks)
      (dailySlotPos day avail maxH) (dailySorted_tenth hten)
      (dailySlotPos_inv hta hq)
    have hsum := forall₂_sprel_sum i1 (dailySlotPos_gap_nonneg hmax)
    have hmap : ((dailySlotPos day avail maxH).map
        (fun sp => sp.slot.stop - sp.currentTime)).sum =
        slotMinutes (getAvailableTimeSlots day avail maxH) := by
      unfold dailySlotPos slotMinutes
      rw [List.map_map]
      rfl
    have hG := slots_minutes_le day avail maxH hmax
    rw [hmap] at hsum
    rw [i4] at hsum
    linarith

/-- On well-formed aligned inputs, the blocks of one daily plan are pairwise
non-overlapping. -/
theorem generateDailyPlan_pairwise {day : ℤ} {tasks : List TaskRem}
    {avail : List Availability} {maxH : ℚ}
    (hta : TimesAligned avail) (hq : Tenth maxH)
    (hwfI : WFIntervals avail) (hod : OpenDisjoint avail)
    (hten : ∀ t ∈ tasks, Tenth t.remaining_hours) :
    List.Pairwise (fun b1 b2 => ¬ blocksOverlap b1 b2)
      (generateDailyPlan day tasks avail maxH).1 := by
  by_cases h : (getAvailableTimeSlots day avail maxH).isEmpty = true
  · rw [generateDailyPlan_empty h]
    exact List.Pairwise.nil
  · rw [generateDailyPlan_eq h]
    exact scheduleTasks_pairwise day (dailySorted tasks)
      (dailySlotPos day avail maxH) (dailySorted_tenth hten)
      (dailySlotPos_inv hta hq) (dailySlotPos_disj hwfI hod)

/-- On aligned inputs no block of a daily plan intersects a busy interval of
the matching weekday. -/
theorem generateDailyPlan_busy {day : ℤ} {tasks : List TaskRem}
    {avail : List Availability} {maxH : ℚ}
    (hta : TimesAligned avail) (hq : Tenth maxH)
    (hten : ∀ t ∈ tasks, Tenth t.remaining_hours) :
    ∀ b ∈ (generateDailyPlan day tasks avail maxH).1, ∀ a ∈ avail,
      a.day = getDayName day → a.available = false →
      ¬ blockMeetsInterval b a := by
  by_cases h : (getAvailableTimeSlots day avail maxH).isEmpty = true
  · rw [generateDailyPlan_empty h]
    intro b hb
    cases hb
  · rw [generateDailyPlan_eq h]
    intro b hb a ha hday hbusy
    obtain ⟨_, _, _, _, i5⟩ := scheduleTasks_spec day (dailySorted tasks)
      (dailySlotPos day avail maxH) (dailySorted_tenth hten)
      (dailySlotPos_inv hta hq)
    obtain ⟨_, _, _, x, hx, x', hx', hslot, hws, hwc, hwe, hwstop⟩ := i5 b hb
    obtain ⟨s, hs, rfl⟩ := List.mem_map.mp hx
    exact not_overlapQ_of_within hws (le_trans hwe hwstop)
      (slots_busy_disjoint day avail maxH s hs a ha hday hbusy)

theorem idRel_symm :
    Symmetric (fun a b : TaskRem => a.toTask.id ≠ b.toTask.id) :=
  fun _ _ h hc => h hc.symm

/-- The remaining-hours bookkeeping of one daily plan: position by position,
the returned task list keeps each task's identity, its remaining hours
decrease by exactly the total duration of the blocks carrying its id, stay a
multiple of 0.1, and never become negative. -/
theorem generateDailyPlan_tasks {day : ℤ} {tasks : List TaskRem}
    {avail : List Availability} {maxH : ℚ}
    (hta : TimesAligned avail) (hq : Tenth maxH)
    (hten : ∀ t ∈ tasks, Tenth t.remaining_hours)
    (hids : List.Pairwise (fun a b : TaskRem => a.toTask.id ≠ b.toTask.id) tasks) :
    List.Forall₂ (fun t t' : TaskRem =>
      t'.toTask = t.toTask ∧ t'.remaining_hours ≤ t.remaining_hours
      ∧ Tenth t'.remaining_hours
      ∧ (0 ≤ t.remaining_hours → 0 ≤ t'.remaining_hours)
      ∧ taskHours t.toTask.id (generateDailyPlan day tasks avail maxH).1
          = t.remaining_hours - t'.remaining_hours)
      tasks (generateDailyPlan day tasks avail maxH).2 := by
  by_cases h : (getAvailableTimeSlots day avail maxH).isEmpty = true
  · rw [generateDailyPlan_empty h]
    refine forall₂_of_mem_refl ?_
    intro t ht
    exact ⟨rfl, le_refl _, hten t ht, fun h => h, by simp [taskHours]⟩
  · rw [generateDailyPlan_eq h]
    obtain ⟨_, _, i3, _, i5⟩ := scheduleTasks_spec day (dailySorted tasks)
      (dailySlotPos day avail maxH) (dailySorted_tenth hten)
      (dailySlotPos_inv hta hq)
    have iT := scheduleTasks_taskHours day (dailySorted tasks)
      (dailySlotPos day avail maxH) (dailySorted_tenth hten)
      (dailySlotPos_inv hta hq) (dailySorted_ids hids)
    have comb := forall₂_and i3 iT
    have hkeys : ((scheduleTasks day (dailySorted tasks)
        (dailySlotPos day avail maxH)).2.2.map Prod.fst)
        = (dailySorted tasks).map Prod.fst :=
      forall₂_fst_eq (fun p u hr => hr.1.1) comb
    have hkn : ((scheduleTasks day (dailySorted tasks)
        (dailySlotPos day avail maxH)).2.2.map Prod.fst).Nodup := by
      rw [hkeys]
      exact dailySorted_keys_nodup tasks
    rw [List.forall₂_iff_get]
    constructor
    · simp [applyRemUpdates, List.enum_length]
    · intro j h1 h2
      have hjl : j < tasks.length := h1
      have hje : j < tasks.enum.length := by
        rw [List.enum_length]
        exact hjl
      have hget : (applyRemUpdates tasks
          (scheduleTasks day (dailySorted tasks)
            (dailySlotPos day avail maxH)).2.2).get ⟨j, h2⟩ =
          (match (scheduleTasks day (dailySorted tasks)
              (dailySlotPos day avail maxH)).2.2.lookup j with
            | some r => { tasks.get ⟨j, hjl⟩ with remaining_hours := r }
            | none => tasks.get ⟨j, hjl⟩) := by
        unfold applyRemUpdates
        rw [List.get_eq_getElem, List.getElem_map, List.getElem_enum]
        simp [List.get_eq_getElem]
      rw [hget]
      have htmem : tasks.get ⟨j, hjl⟩ ∈ tasks := by
        rw [List.get_eq_getElem]
        exact List.getElem_mem hjl
      by_cases hpos : 0 < (tasks.get ⟨j, hjl⟩).remaining_hours
      · have hmemS : (j, tasks.get ⟨j, hjl⟩) ∈ dailySorted tasks := by
          refine dailySorted_mem.mpr ⟨?_, hpos⟩
          rw [List.mem_enum_iff_getElem?, List.get_eq_getElem]
          exact List.getElem?_eq_getElem hjl
        obtain ⟨u, hu, ⟨⟨hu1, huT, hule, hupos⟩, huTH⟩⟩ := forall₂_mem_left comb hmemS
        have hur : (j, u.2) ∈ (scheduleTasks day (dailySorted tasks)
            (dailySlotPos day avail maxH)).2.2 := by
          have : u = (j, u.2) := by
            rw [Prod.ext_iff]
            exact ⟨hu1, rfl⟩
          rw [← this]
          exact hu
        rw [lookup_of_mem_nodup hkn hur]
        exact ⟨rfl, hule, huT, hupos, huTH⟩
      · have hnone : (scheduleTasks day (dailySorted tasks)
            (dailySlotPos day avail maxH)).2.2.lookup j = none := by
          refine lookup_eq_none_of_keys ?_
          intro u hu hc
          have : u.1 ∈ (scheduleTasks day (dailySorted tasks)
              (dailySlotPos day avail maxH)).2.2.map Prod.fst :=
            List.mem_map.mpr ⟨u, hu, rfl⟩
          rw [hkeys] at this
          obtain ⟨p, hp, hp1⟩ := List.mem_map.mp this
          obtain ⟨hpe, hppos⟩ := dailySorted_mem.mp hp
          rw [List.mem_enum_iff_getElem?] at hpe
          rw [hp1, hc] at hpe
          rw [List.getElem?_eq_getElem hjl] at hpe
          have : p.2 = tasks.get ⟨j, hjl⟩ := by
            rw [List.get_eq_getElem]
            exact (Option.some.injEq .. ▸ hpe).symm
          rw [this] at hppos
          exact hpos hppos
        rw [hnone]
        refine ⟨rfl, le_refl _, hten _ htmem, fun h => h, ?_⟩
        rw [sub_self, taskHours_none]
        intro b hb
        obtain ⟨_, _, ⟨q, hq2, hqid⟩, _⟩ := i5 b hb
        obtain ⟨hqe, hqpos⟩ := dailySorted_mem.mp hq2
        have hqmem : q.2 ∈ tasks := mem_enum_snd hqe
        rw [hqid]
        by_cases hqt : q.2 = tasks.get ⟨j, hjl⟩
        · rw [hqt] at hqpos
          exact absurd hqpos hpos
        · exact List.Pairwise.forall idRel_symm hids hqmem htmem hqt

/-- Unconditionally, every block `scheduleTask` emits is tagged with the
given day. -/
theorem scheduleTask_day (day : ℤ) (tid : String) (title : Option String) :
    ∀ (sps : List SlotPos) (rem : ℚ),
      ∀ b ∈ (scheduleTask day tid title rem sps).1, b.day = day := by
  intro sps
  induction sps with
  | nil => intro rem b hb; simp [scheduleTask] at hb
  | cons sp rest ih =>
    intro rem b hb
    by_cases h0 : rem ≤ 0
    · rw [show scheduleTask day tid title rem (sp :: rest) = ([], sp :: rest, rem) by
        simp only [scheduleTask, if_pos h0]] at hb
      cases hb
    · by_cases h60 : sp.slot.stop - sp.currentTime < 60
      · rw [show (scheduleTask day tid title rem (sp :: rest)).1 =
            (scheduleTask day tid title rem rest).1 by
          simp only [scheduleTask, if_neg h0, if_pos h60]] at hb
        exact ih rem b hb
      · by_cases h1 : (1:ℚ) ≤ min rem ((sp.slot.stop - sp.currentTime) / 60)
        · rw [show (scheduleTask day tid title rem (sp :: rest)).1 =
              StudyBlock.mk tid day sp.currentTime
                (round1 (min rem ((sp.slot.stop - sp.currentTime) / 60))) title ::
                (scheduleTask day tid title
                  (rem - min rem ((sp.slot.stop - sp.currentTime) / 60)) rest).1 by
            simp only [scheduleTask, if_neg h0, if_neg h60, if_pos h1]] at hb
          rcases List.mem_cons.mp hb with rfl | hb
          · rfl
          · exact ih _ b hb
        · rw [show (scheduleTask day tid title rem (sp :: rest)).1 =
              (scheduleTask day tid title rem rest).1 by
            simp only [scheduleTask, if_neg h0, if_neg h60, if_neg h1]] at hb
          exact ih rem b hb

/-- Unconditionally, every block `scheduleTasks` emits is tagged with the
given day. -/
theorem scheduleTasks_day (day : ℤ) :
    ∀ (ts : List (ℕ × TaskRem)) (sps : List SlotPos),
      ∀ b ∈ (scheduleTasks day ts sps).1, b.day = day := by
  intro ts
  induction ts with
  | nil => intro sps b hb; simp [scheduleTasks] at hb
  | cons pt ts ih =>
    obtain ⟨i, t⟩ := pt
    intro sps b hb
    by_cases h0 : t.remaining_hours ≤ 0
    · rw [show (scheduleTasks day ((i, t) :: ts) sps).1 =
          (scheduleTasks day ts sps).1 by
        simp only [scheduleTasks, if_pos h0]] at hb
      exact ih sps b hb
    · rw [show (scheduleTasks day ((i, t) :: ts) sps).1 =
          (scheduleTask day t.toTask.id t.toTask.title t.remaining_hours sps).1 ++
            (scheduleTasks day ts
              (scheduleTask day t.toTask.id t.toTask.title t.remaining_hours sps).2.1).1 by
        simp only [scheduleTasks, if_neg h0]] at hb
      rcases List.mem_append.mp hb with hb | hb
      · exact scheduleTask_day day t.toTask.id t.toTask.title sps t.remaining_hours b hb
      · exact ih _ b hb

/-- Unconditionally, every block of a daily plan carries that day. -/
theorem generateDailyPlan_day (day : ℤ) (tasks : List TaskRem)
    (avail : List Availability) (maxH : ℚ) :
    ∀ b ∈ (generateDailyPlan day tasks avail maxH).1, b.day = day := by
  by_cases h : (getAvailableTimeSlots day avail maxH).isEmpty = true
  · rw [generateDailyPlan_empty h]
    intro b hb
    cases hb
  · rw [generateDailyPlan_eq h]
    exact scheduleTasks_day day _ _

theorem forall₂_map_eq {α β γ : Type} {R : α → β → Prop} {f : β → γ} {g : α → γ}
    (hR : ∀ a b, R a b → f b = g a) :
    ∀ {l1 : List α} {l2 : List β}, List.Forall₂ R l1 l2 → l2.map f = l1.map g
  | _, _, List.Forall₂.nil => rfl
  | _, _, List.Forall₂.cons h t => by
    simp [forall₂_map_eq hR t, hR _ _ h]

/-- The identity-and-bounds part of the daily bookkeeping, available without
any assumption on task ids. -/
theorem generateDailyPlan_tasks_basic {day : ℤ} {tasks : List TaskRem}
    {avail : List Availability} {maxH : ℚ}
    (hta : TimesAligned avail) (hq : Tenth maxH)
    (hten : ∀ t ∈ tasks, Tenth t.remaining_hours) :
    List.Forall₂ (fun t t' : TaskRem =>
      t'.toTask = t.toTask ∧ t'.remaining_hours ≤ t.remaining_hours
      ∧ Tenth t'.remaining_hours
      ∧ (0 ≤ t.remaining_hours → 0 ≤ t'.remaining_hours))
      tasks (generateDailyPlan day tasks avail maxH).2 := by
  by_cases h : (getAvailableTimeSlots day avail maxH).isEmpty = true
  · rw [generateDailyPlan_empty h]
    refine forall₂_of_mem_refl ?_
    intro t ht
    exact ⟨rfl, le_refl _, hten t ht, fun h => h⟩
  · rw [generateDailyPlan_eq h]
    obtain ⟨_, _, i3, _, _⟩ := scheduleTasks_spec day (dailySorted tasks)
      (dailySlotPos day avail maxH) (dailySorted_tenth hten)
      (dailySlotPos_inv hta hq)
    have hkeys : ((scheduleTasks day (dailySorted tasks)
        (dailySlotPos day avail maxH)).2.2.map Prod.fst)
        = (dailySorted tasks).map Prod.fst :=
      forall₂_fst_eq (fun p u hr => hr.1) i3
    have hkn : ((scheduleTasks day (dailySorted tasks)
        (dailySlotPos day avail maxH)).2.2.map Prod.fst).Nodup := by
      rw [hkeys]
      exact dailySorted_keys_nodup tasks
    rw [List.forall₂_iff_get]
    constructor
    · simp [applyRemUpdates, List.enum_length]
    · intro j h1 h2
      have hjl : j < tasks.length := h1
      have hget : (applyRemUpdates tasks
          (scheduleTasks day (dailySorted tasks)
            (dailySlotPos day avail maxH)).2.2).get ⟨j, h2⟩ =
          (match (scheduleTasks day (dailySorted tasks)
              (dailySlotPos day avail maxH)).2.2.lookup j with
            | some r => { tasks.get ⟨j, hjl⟩ with remaining_hours := r }
            | none => tasks.get ⟨j, hjl⟩) := by
        unfold applyRemUpdates
        rw [List.get_eq_getElem, List.getElem_map, List.getElem_enum]
        simp [List.get_eq_getElem]
      rw [hget]
      have htmem : tasks.get ⟨j, hjl⟩ ∈ tasks := by
        rw [List.get_eq_getElem]
        exact List.getElem_mem hjl
      by_cases hpos : 0 < (tasks.get ⟨j, hjl⟩).remaining_hours
      · have hmemS : (j, tasks.get ⟨j, hjl⟩) ∈ dailySorted tasks := by
          refine dailySorted_mem.mpr ⟨?_, hpos⟩
          rw [List.mem_enum_iff_getElem?, List.get_eq_getElem]
          exact List.getElem?_eq_getElem hjl
        obtain ⟨u, hu, hu1, huT, hule, hupos⟩ := forall₂_mem_left i3 hmemS
        have hur : (j, u.2) ∈ (scheduleTasks day (dailySorted tasks)
            (dailySlotPos day avail maxH)).2.2 := by
          have he : u = (j, u.2) := by
            rw [Prod.ext_iff]
            exact ⟨hu1, rfl⟩
          rw [← he]
          exact hu
        rw [lookup_of_mem_nodup hkn hur]
        exact ⟨rfl, hule, huT, hupos⟩
      · have hnone : (scheduleTasks day (dailySorted tasks)
            (dailySlotPos day avail maxH)).2.2.lookup j = none := by
          refine lookup_eq_none_of_keys ?_
          intro u hu hc
          have hmm : u.1 ∈ (scheduleTasks day (dailySorted tasks)
              (dailySlotPos day avail maxH)).2.2.map Prod.fst :=
            List.mem_map.mpr ⟨u, hu, rfl⟩
          rw [hkeys] at hmm
          obtain ⟨p, hp, hp1⟩ := List.mem_map.mp hmm
          obtain ⟨hpe, hppos⟩ := dailySorted_mem.mp hp
          rw [List.mem_enum_iff_getElem?] at hpe
          rw [hp1, hc] at hpe
          rw [List.getElem?_eq_getElem hjl] at hpe
          have he2 : p.2 = tasks.get ⟨j, hjl⟩ := by
            rw [List.get_eq_getElem]
            exact (Option.some.injEq .. ▸ hpe).symm
          rw [he2] at hppos
          exact hpos hppos
        rw [hnone]
        exact ⟨rfl, le_refl _, hten _ htmem, fun h => h⟩

/-- The built-in default availability is 6-minute aligned. -/
theorem defaults_aligned : TimesAligned getDefaultAvailability := by
  unfold TimesAligned getDefaultAvailability
  decide

/-- The built-in default availability intervals are well-formed. -/
theorem defaults_wf : WFIntervals getDefaultAvailability := by
  unfold WFIntervals getDefaultAvailability
  decide

/-- The built-in default availability intervals are pairwise disjoint (they
carry seven distinct weekdays). -/
theorem defaults_od : OpenDisjoint getDefaultAvailability := by
  unfold OpenDisjoint getDefaultAvailability
  decide

/-- Alignment survives `generateWeeklyPlan`'s default-availability
substitution. -/
theorem weeklyAvail_aligned {avail : List Availability} (h : TimesAligned avail) :
    TimesAligned (if avail.isEmpty then getDefaultAvailability else avail) := by
  by_cases he : avail.isEmpty
  · rw [if_pos he]; exact defaults_aligned
  · rw [if_neg he]; exact h

/-- Well-formedness survives the default-availability substitution. -/
theorem weeklyAvail_wf {avail : List Availability} (h : WFIntervals avail) :
    WFIntervals (if avail.isEmpty then getDefaultAvailability else avail) := by
  by_cases he : avail.isEmpty
  · rw [if_pos he]; exact defaults_wf
  · rw [if_neg he]; exact h

/-- Open-interval disjointness survives the default substitution. -/
theorem weeklyAvail_od {avail : List Availability} (h : OpenDisjoint avail) :
    OpenDisjoint (if avail.isEmpty then getDefaultAvailability else avail) := by
  by_cases he : avail.isEmpty
  · rw [if_pos he]; exact defaults_od
  · rw [if_neg he]; exact h

theorem weeklyLoop_succ (avail : List Availability) (maxH : ℚ) (n : ℕ) (date : ℤ)
    (ts : List TaskRem) :
    weeklyLoop avail maxH (n + 1) date ts =
      if (generateDailyPlan date ts avail maxH).2.all
          (fun t => decide (t.remaining_hours ≤ 0)) then
        (generateDailyPlan date ts avail maxH).1
      else
        (generateDailyPlan date ts avail maxH).1 ++
          weeklyLoop avail maxH n (date + 1) (generateDailyPlan date ts avail maxH).2 :=
  rfl

theorem stateAfter_succ (avail : List Availability) (maxH : ℚ) (m : ℕ) (date : ℤ)
    (ts : List TaskRem) :
    stateAfter avail maxH (m + 1) date ts =
      stateAfter avail maxH m (date + 1) (generateDailyPlan date ts avail maxH).2 :=
  rfl

/-- Every block of the weekly loop falls on one of the `n` processed days. -/
theorem weeklyLoop_day_range (avail : List Availability) (maxH : ℚ) :
    ∀ (n : ℕ) (date : ℤ) (ts : List TaskRem),
      ∀ b ∈ weeklyLoop avail maxH n date ts, ∃ k : ℕ, k < n ∧ b.day = date + k := by
  intro n
  induction n with
  | zero =>
    intro date ts b hb
    rw [show weeklyLoop avail maxH 0 date ts = [] from rfl] at hb
    cases hb
  | succ n ih =>
    intro date ts b hb
    rw [weeklyLoop_succ] at hb
    by_cases hc : (generateDailyPlan date ts avail maxH).2.all
        (fun t => decide (t.remaining_hours ≤ 0)) = true
    · rw [if_pos hc] at hb
      refine ⟨0, Nat.succ_pos n, ?_⟩
      rw [generateDailyPlan_day date ts avail maxH b hb]
      simp
    · rw [if_neg hc] at hb
      rcases List.mem_append.mp hb with hb | hb
      · refine ⟨0, Nat.succ_pos n, ?_⟩
        rw [generateDailyPlan_day date ts avail maxH b hb]
        simp
      · obtain ⟨k, hk, hbd⟩ := ih (date + 1) _ b hb
        refine ⟨k + 1, by omega, ?_⟩
        rw [hbd]
        push_cast
        ring

/-- Transport of pairwise-distinct ids along the identity-preserving
`Forall₂` produced by a day of planning. -/
theorem pairwise_ids_transfer {ts ts' : List TaskRem}
    (h : List.Forall₂ (fun t t' : TaskRem => t'.toTask = t.toTask) ts ts')
    (hp : List.Pairwise (fun a b : TaskRem => a.toTask.id ≠ b.toTask.id) ts) :
    List.Pairwise (fun a b : TaskRem => a.toTask.id ≠ b.toTask.id) ts' := by
  have hm : ts'.map (fun t : TaskRem => t.toTask.id)
      = ts.map (fun t : TaskRem => t.toTask.id) :=
    forall₂_map_eq (fun a b hr => by rw [hr]) h
  have h1 : List.Pairwise Ne (ts.map (fun t : TaskRem => t.toTask.id)) :=
    List.pairwise_map.mpr hp
  rw [← hm] at h1
  exact List.pairwise_map.mp h1

/-- A day of planning keeps every remaining-hours value a multiple of
0.1 h. -/
theorem daily_state_tenth {day : ℤ} {ts : List TaskRem}
    {avail : List Availability} {maxH : ℚ}
    (hta : TimesAligned avail) (hq : Tenth maxH)
    (hten : ∀ t ∈ ts, Tenth t.remaining_hours) :
    ∀ t' ∈ (generateDailyPlan day ts avail maxH).2, Tenth t'.remaining_hours := by
  intro t' ht'
  obtain ⟨t, _, _, _, hTen, _⟩ := forall₂_mem_right
    (generateDailyPlan_tasks_basic hta hq hten) ht'
  exact hTen

/-- No same-day pair of weekly-plan blocks overlaps (amended invariant: the
availability is 6-minute aligned, well-formed and open-disjoint, and the cap
and estimates are multiples of 0.1 h). -/
theorem weeklyLoop_pairwise {avail : List Availability} {maxH : ℚ}
    (hta : TimesAligned avail) (hq : Tenth maxH)
    (hwfI : WFIntervals avail) (hod : OpenDisjoint avail) :
    ∀ (n : ℕ) (date : ℤ) (ts : List TaskRem),
      (∀ t ∈ ts, Tenth t.remaining_hours) →
      NoDayOverlap (weeklyLoop avail maxH n date ts) := by
  intro n
  induction n with
  | zero =>
    intro date ts _
    rw [show weeklyLoop avail maxH 0 date ts = [] from rfl]
    exact List.Pairwise.nil
  | succ n ih =>
    intro date ts hten
    rw [weeklyLoop_succ]
    have hpw : NoDayOverlap (generateDailyPlan date ts avail maxH).1 := by
      unfold NoDayOverlap
      refine List.Pairwise.imp ?_
        (@generateDailyPlan_pairwise date ts avail maxH hta hq hwfI hod hten)
      intro b1 b2 hnb _
      exact hnb
    by_cases hc : (generateDailyPlan date ts avail maxH).2.all
        (fun t => decide (t.remaining_hours ≤ 0)) = true
    · rw [if_pos hc]
      exact hpw
    · rw [if_neg hc]
      rw [NoDayOverlap, List.pairwise_append]
      refine ⟨hpw, ih (date + 1) _ (@daily_state_tenth date ts avail maxH hta hq hten), ?_⟩
      intro b1 hb1 b2 hb2 heq
      exfalso
      obtain ⟨k, _, hk⟩ := weeklyLoop_day_range avail maxH n (date + 1) _ b2 hb2
      rw [generateDailyPlan_day date ts avail maxH b1 hb1, hk] at heq
      omega

/-- Across the whole weekly loop, the hours scheduled for a task never exceed
its remaining hours on entry (amended per-task bound). -/
theorem weeklyLoop_taskHours {avail : List Availability} {maxH : ℚ}
    (hta : TimesAligned avail) (hq : Tenth maxH) :
    ∀ (n : ℕ) (date : ℤ) (ts : List TaskRem),
      (∀ t ∈ ts, Tenth t.remaining_hours ∧ 0 ≤ t.remaining_hours) →
      List.Pairwise (fun a b : TaskRem => a.toTask.id ≠ b.toTask.id) ts →
      ∀ t ∈ ts, taskHours t.toTask.id (weeklyLoop avail maxH n date ts)
        ≤ t.remaining_hours := by
  intro n
  induction n with
  | zero =>
    intro date ts hh _ t ht
    rw [show weeklyLoop avail maxH 0 date ts = [] from rfl]
    rw [show taskHours t.toTask.id ([] : List StudyBlock) = 0 by simp [taskHours]]
    exact (hh t ht).2
  | succ n ih =>
    intro date ts hh hids t ht
    have hten : ∀ t ∈ ts, Tenth t.remaining_hours := fun t ht => (hh t ht).1
    have F := @generateDailyPlan_tasks date ts avail maxH hta hq hten hids
    obtain ⟨t', ht', hT, hle, hTen, hpos, hTH⟩ := forall₂_mem_left F ht
    rw [weeklyLoop_succ]
    by_cases hc : (generateDailyPlan date ts avail maxH).2.all
        (fun t => decide (t.remaining_hours ≤ 0)) = true
    · rw [if_pos hc, hTH]
      have h0 : 0 ≤ t'.remaining_hours := hpos (hh t ht).2
      linarith
    · rw [if_neg hc, taskHours_append, hTH]
      have hh' : ∀ s ∈ (generateDailyPlan date ts avail maxH).2,
          Tenth s.remaining_hours ∧ 0 ≤ s.remaining_hours := by
        intro s hs
        obtain ⟨s0, hs0, _, _, hTen0, hpos0, _⟩ := forall₂_mem_right F hs
        exact ⟨hTen0, hpos0 (hh s0 hs0).2⟩
      have hids' : List.Pairwise (fun a b : TaskRem => a.toTask.id ≠ b.toTask.id)
          (generateDailyPlan date ts avail maxH).2 :=
        pairwise_ids_transfer (F.imp (fun a b h => h.1)) hids
      have hrest := ih (date + 1) _ hh' hids' t' ht'
      rw [hT] at hrest
      linarith

/-- Across the weekly loop, no day's blocks total more than the daily cap
(amended capacity bound). -/
theorem weeklyLoop_dayHours {avail : List Availability} {maxH : ℚ}
    (hta : TimesAligned avail) (hq : Tenth maxH) (hmax : 0 ≤ maxH) :
    ∀ (n : ℕ) (date : ℤ) (ts : List TaskRem) (d : ℤ),
      (∀ t ∈ ts, Tenth t.remaining_hours) →
      dayHours d (weeklyLoop avail maxH n date ts) ≤ maxH := by
  intro n
  induction n with
  | zero =>
    intro date ts d _
    rw [show weeklyLoop avail maxH 0 date ts = [] from rfl]
    simpa [dayHours] using hmax
  | succ n ih =>
    intro date ts d hten
    rw [weeklyLoop_succ]
    have hday := generateDailyPlan_day date ts avail maxH
    have hblocks : dayHours d (generateDailyPlan date ts avail maxH).1 ≤ maxH := by
      by_cases hd : d = date
      · subst hd
        rw [dayHours_all hday]
        exact generateDailyPlan_sumDur hta hq hmax hten
      · rw [dayHours_none (fun b hb => by
          rw [hday b hb]; exact fun hc => hd hc.symm)]
        exact hmax
    by_cases hc : (generateDailyPlan date ts avail maxH).2.all
        (fun t => decide (t.remaining_hours ≤ 0)) = true
    · rw [if_pos hc]
      exact hblocks
    · rw [if_neg hc, dayHours_append]
      by_cases hd : d = date
      · have hrest0 : dayHours d (weeklyLoop avail maxH n (date + 1)
            (generateDailyPlan date ts avail maxH).2) = 0 := by
          refine dayHours_none ?_
          intro b hb
          obtain ⟨k, _, hbd⟩ := weeklyLoop_day_range avail maxH n (date + 1) _ b hb
          rw [hbd, hd]
          intro hcon
          omega
        rw [hrest0]
        linarith
      · have hb0 : dayHours d (generateDailyPlan date ts avail maxH).1 = 0 := by
          refine dayHours_none ?_
          intro b hb
          rw [hday b hb]
          exact fun hc => hd hc.symm
        rw [hb0]
        have := ih (date + 1) _ d (@daily_state_tenth date ts avail maxH hta hq hten)
        linarith

/-- Across the weekly loop, no block meets a busy interval tagged with its
day's weekday (amended busy-interval exclusion). -/
theorem weeklyLoop_busy {avail : List Availability} {maxH : ℚ}
    (hta : TimesAligned avail) (hq : Tenth maxH) :
    ∀ (n : ℕ) (date : ℤ) (ts : List TaskRem),
      (∀ t ∈ ts, Tenth t.remaining_hours) →
      ∀ b ∈ weeklyLoop avail maxH n date ts, ∀ a ∈ avail,
        a.day = getDayName b.day → a.available = false →
        ¬ blockMeetsInterval b a := by
  intro n
  induction n with
  | zero =>
    intro date ts _ b hb
    rw [show weeklyLoop avail maxH 0 date ts = [] from rfl] at hb
    cases hb
  | succ n ih =>
    intro date ts hten b hb a ha hseen hbusy
    rw [weeklyLoop_succ] at hb
    have hfirst : b ∈ (generateDailyPlan date ts avail maxH).1 →
        ¬ blockMeetsInterval b a := by
      intro hb1
      refine generateDailyPlan_busy hta hq hten b hb1 a ha ?_ hbusy
      rw [hseen, generateDailyPlan_day date ts avail maxH b hb1]
    by_cases hc : (generateDailyPlan date ts avail maxH).2.all
        (fun t => decide (t.remaining_hours ≤ 0)) = true
    · rw [if_pos hc] at hb
      exact hfirst hb
    · rw [if_neg hc] at hb
      rcases List.mem_append.mp hb with hb | hb
      · exact hfirst hb
      · exact ih (date + 1) _ (@daily_state_tenth date ts avail maxH hta hq hten) b hb a ha hseen hbusy

/-- Once the state at the end of relative day `k` is fully complete, the
weekly loop emits no block on a strictly later day. -/
theorem weeklyLoop_early_stop (avail : List Availability) (maxH : ℚ) :
    ∀ (n k : ℕ) (date : ℤ) (ts : List TaskRem),
      (∀ t ∈ stateAfter avail maxH (k + 1) date ts, t.remaining_hours ≤ 0) →
      ∀ b ∈ weeklyLoop avail maxH n date ts, b.day ≤ date + k := by
  intro n
  induction n with
  | zero =>
    intro k date ts _ b hb
    rw [show weeklyLoop avail maxH 0 date ts = [] from rfl] at hb
    cases hb
  | succ n ih =>
    intro k date ts hdone b hb
    rw [weeklyLoop_succ] at hb
    by_cases hc : (generateDailyPlan date ts avail maxH).2.all
        (fun t => decide (t.remaining_hours ≤ 0)) = true
    · rw [if_pos hc] at hb
      rw [generateDailyPlan_day date ts avail maxH b hb]
      omega
    · rw [if_neg hc] at hb
      rcases List.mem_append.mp hb with hb | hb
      · rw [generateDailyPlan_day date ts avail maxH b hb]
        omega
      · cases k with
        | zero =>
          exfalso
          apply hc
          rw [List.all_eq_true]
          intro t htm
          rw [decide_eq_true_eq]
          rw [stateAfter_succ] at hdone
          exact hdone t htm
        | succ k' =>
          rw [stateAfter_succ] at hdone
          have hih := ih k' (date + 1)
            (generateDailyPlan date ts avail maxH).2 hdone b hb
          omega

/-- C1, counterexample to the claim as stated: with a top-priority task of
2.26 estimated hours (Monday 09:00–17:00 available, 6 h/day cap, start on a
Monday), its block's `duration` is rounded up to 2.3 h, so the range computed
from the output `duration` field runs to 11:18 while the next task's block
starts at 11:15.6 — two same-day blocks overlap. -/
theorem C1_counterexample :
    ¬ NoDayOverlap (generateWeeklyPlan c1tasks monAvail 6 4) := by
  have h : generateWeeklyPlan c1tasks monAvail 6 4 =
      [⟨"t1", 4, 540, 23/10, none⟩, ⟨"t2", 4, 3378/5, 3, none⟩] := by
    norm_num [generateWeeklyPlan, weeklyLoop, generateDailyPlan, getAvailableTimeSlots,
      getDayName, slotsLoop, processPeriod, carveBusy, overlapsPeriod, startLE,
      List.insertionSort, List.orderedInsert, scheduleTasks, scheduleTask, applyRemUpdates,
      round1, jsRound, round_eq, priorityGE, initTasks, c1tasks, monAvail, List.enum,
      List.enumFrom, min_def, max_def]
  rw [h]
  norm_num [NoDayOverlap, List.pairwise_cons, blocksOverlap, overlapQ, min_def, max_def]

/-- C2, counterexample to the claim as stated: a single task with
`estimated_hours = 1.26` receives one block whose output `duration` is
rounded up to 1.3 h, so the sum of its block durations exceeds its
`estimated_hours`. -/
theorem C2_counterexample :
    ¬ taskHours "t1" (generateWeeklyPlan c2tasks monAvail 6 4) ≤ 126/100 := by
  have h : generateWeeklyPlan c2tasks monAvail 6 4 = [⟨"t1", 4, 540, 13/10, none⟩] := by
    norm_num [generateWeeklyPlan, weeklyLoop, generateDailyPlan, getAvailableTimeSlots,
      getDayName, slotsLoop, processPeriod, carveBusy, overlapsPeriod, startLE,
      List.insertionSort, List.orderedInsert, scheduleTasks, scheduleTask, applyRemUpdates,
      round1, jsRound, round_eq, priorityGE, initTasks, c2tasks, monAvail, List.enum,
      List.enumFrom, min_def, max_def]
  rw [h]
  norm_num [taskHours]

/-- C3, counterexample to the claim as stated: tasks of 1.97 h, 1.97 h and
2.06 h fill the Monday 6-hour cap exactly, but the emitted durations are
rounded to 2.0 h, 2.0 h and 2.1 h, so the day's block durations sum to 6.1 h
with `max_hours_per_day = 6`. -/
theorem C3_counterexample :
    ¬ dayHours 4 (generateWeeklyPlan c3tasks monAvail 6 4) ≤ 6 := by
  have h : generateWeeklyPlan c3tasks monAvail 6 4 =
      [⟨"a", 4, 540, 2, none⟩, ⟨"b", 4, 3291/5, 2, none⟩, ⟨"c", 4, 3882/5, 21/10, none⟩] := by
    norm_num [generateWeeklyPlan, weeklyLoop, generateDailyPlan, getAvailableTimeSlots,
      getDayName, slotsLoop, processPeriod, carveBusy, overlapsPeriod, startLE,
      List.insertionSort, List.orderedInsert, scheduleTasks, scheduleTask, applyRemUpdates,
      round1, jsRound, round_eq, priorityGE, initTasks, c3tasks, monAvail, List.enum,
      List.enumFrom, min_def, max_def]
  rw [h]
  norm_num [dayHours]

/-- C4, counterexample to the claim as stated: for an overdue task with
`difficulty_score = 1.0004` and `estimated_hours = 1.002`, the code's
`priority_score` is `round2(100 + 10.004 + 2.004) = 112.01`, while the sum of
the individually rounded weights is `100 + 10.00 + 2.00 = 112.00` — so
`prioritize` does not return the value the claim's formula
(weights rounded *before* summing) prescribes. -/
theorem C4_counterexample :
    prioritize [c4task] 0 ≠ [claimScoreTaskC4 0 c4task] := by
  intro h
  have h2 := congrArg (fun l => (l.map PrioritizedTask.priority_score)) h
  norm_num [prioritize, List.insertionSort, scoreTask, claimScoreTaskC4,
    calculateUrgencyWeight, calculateDifficultyWeight, calculateHoursWeight,
    round2, jsRound, round_eq, c4task, min_def, max_def] at h2

/-- C5, counterexample to the claim as stated: with Monday 09:00–11:00 open
and 10:05–11:00 busy, the free slot is the 65-minute range 09:00–10:05; a
task of 65/60 h fills it, its `duration` is rounded up to 1.1 h, and the
range computed from the output `duration` field runs to 10:06 — into the
busy interval. -/
theorem C5_counterexample :
    ¬ (∀ a ∈ c5avail, a.available = false →
      ∀ b ∈ generateWeeklyPlan c5tasks c5avail 6 4,
        getDayName b.day = a.day → ¬ blockMeetsInterval b a) := by
  intro hclaim
  have h : generateWeeklyPlan c5tasks c5avail 6 4 = [⟨"t", 4, 540, 11/10, none⟩] := by
    norm_num [generateWeeklyPlan, weeklyLoop, generateDailyPlan, getAvailableTimeSlots,
      getDayName, slotsLoop, processPeriod, carveBusy, overlapsPeriod, startLE,
      List.insertionSort, List.orderedInsert, scheduleTasks, scheduleTask, applyRemUpdates,
      round1, jsRound, round_eq, priorityGE, initTasks, c5tasks, c5avail, List.enum,
      List.enumFrom, min_def, max_def]
  have hb := hclaim ⟨.monday, 605, 660, false⟩ (by norm_num [c5avail]) rfl
    ⟨"t", 4, 540, 11/10, none⟩ (by rw [h]; exact List.mem_singleton.mpr rfl)
    (by norm_num [getDayName])
  exact hb (by norm_num [blockMeetsInterval, overlapQ, min_def, max_def])

/-- C7, counterexample to the claim as stated: with the Scenario B
availability but the system's default `maxHoursPerDay = 6`, the daily cap
truncates the second slot to 13:00–16:00, so `getAvailableTimeSlots` does
*not* return the two claimed ranges 09:00–12:00 and 13:00–17:00. -/
theorem C7_counterexample :
    getAvailableTimeSlots 4 c7avail 6 ≠ [⟨540, 720⟩, ⟨780, 1020⟩] := by
  have h : getAvailableTimeSlots 4 c7avail 6 = [⟨540, 720⟩, ⟨780, 960⟩] := by
    norm_num [getAvailableTimeSlots, getDayName, slotsLoop, processPeriod, carveBusy,
      overlapsPeriod, startLE, List.insertionSort, List.orderedInsert, c7avail,
      min_def, max_def]
  rw [h]
  intro hc
  have h2 := congrArg (fun l => l.map TimeRange.stop) hc
  norm_num at h2

/-- The source's per-task scoring agrees with the amended C4 formulas: the
doubled `max 0` in `calculateUrgencyWeight` collapses to a single clamp. -/
theorem scoreTask_eq_specC4 (now : ℚ) (t : TaskInput) :
    scoreTask now t = specScoreTaskC4 now t := by
  have h : ∀ x : ℚ, max 0 (max 0 x) = max 0 x := fun x => by
    rw [← max_assoc, max_self]
  unfold scoreTask specScoreTaskC4 calculateUrgencyWeight calculateDifficultyWeight
    calculateHoursWeight
  simp only [h]

/-- `scheduleTasks` over a concatenation first schedules the front batch and
only then lets the back batch see the leftover slot cursors: lower-priority
tasks are only offered what the higher-priority prefix left behind. -/
theorem scheduleTasks_append (day : ℤ) :
    ∀ (ts1 ts2 : List (ℕ × TaskRem)) (sps : List SlotPos),
      scheduleTasks day (ts1 ++ ts2) sps =
        ((scheduleTasks day ts1 sps).1
            ++ (scheduleTasks day ts2 (scheduleTasks day ts1 sps).2.1).1,
          (scheduleTasks day ts2 (scheduleTasks day ts1 sps).2.1).2.1,
          (scheduleTasks day ts1 sps).2.2
            ++ (scheduleTasks day ts2 (scheduleTasks day ts1 sps).2.1).2.2) := by
  intro ts1
  induction ts1 with
  | nil =>
    intro ts2 sps
    simp [scheduleTasks]
  | cons pt ts1 ih =>
    obtain ⟨i, t⟩ := pt
    intro ts2 sps
    by_cases h0 : t.remaining_hours ≤ 0
    · simp only [List.cons_append, scheduleTasks, if_pos h0, List.append_eq]
      rw [ih ts2 sps]
    · simp only [List.cons_append, scheduleTasks, if_neg h0, List.append_eq]
      rw [ih ts2 (scheduleTask day t.toTask.id t.toTask.title t.remaining_hours sps).2.1]
      simp [List.append_assoc]

/-- If some availability interval matches the weekday but every matching
interval is busy, `getAvailableTimeSlots` returns no slots. -/
theorem slots_all_busy (date : ℤ) (availability : List Availability) (maxH : ℚ)
    (hmatch : ∃ a ∈ availability, a.day = getDayName date)
    (hbusy : ∀ a ∈ availability, a.day = getDayName date → a.available = false) :
    getAvailableTimeSlots date availability maxH = [] := by
  obtain ⟨a0, ha0, hd0⟩ := hmatch
  have hmemf : a0 ∈ availability.filter (fun a => decide (a.day = getDayName date)) :=
    List.mem_filter.mpr ⟨ha0, decide_eq_true hd0⟩
  have hne : (availability.filter
      (fun a => decide (a.day = getDayName date))).isEmpty = false := by
    cases hfl : availability.filter (fun a => decide (a.day = getDayName date)) with
    | nil => rw [hfl] at hmemf; cases hmemf
    | cons x xs => rfl
  have hav : (availability.filter
        (fun a => decide (a.day = getDayName date))).filter
      (fun a => a.available) = [] := by
    rw [List.filter_eq_nil_iff]
    intro a ha
    obtain ⟨hmem, hdec⟩ := List.mem_filter.mp ha
    rw [hbusy a hmem (of_decide_eq_true hdec)]
    simp
  simp only [getAvailableTimeSlots]
  rw [hne]
  simp only [Bool.false_eq_true, if_false]
  rw [hav]
  rfl

/-- Elements `orderedInsert` skips over have strictly larger
`priority_score` than the inserted task, so inserting commutes with
filtering by an exact score value. -/
theorem filter_orderedInsert_score (q : ℚ) (a : PrioritizedTask) :
    ∀ l : List PrioritizedTask,
      (List.orderedInsert priorityGE a l).filter
          (fun t => decide (t.priority_score = q))
        = if a.priority_score = q
            then a :: l.filter (fun t => decide (t.priority_score = q))
            else l.filter (fun t => decide (t.priority_score = q))
  | [] => by
    by_cases haq : a.priority_score = q
    · simp [List.orderedInsert, haq]
    · simp [List.orderedInsert, haq]
  | b :: l => by
    by_cases hr : priorityGE a b
    · rw [show List.orderedInsert priorityGE a (b :: l) = a :: b :: l by
        simp [List.orderedInsert, hr]]
      by_cases haq : a.priority_score = q <;>
        simp [List.filter_cons, haq]
    · rw [show List.orderedInsert priorityGE a (b :: l)
          = b :: List.orderedInsert priorityGE a l by
        simp [List.orderedInsert, hr]]
      rw [List.filter_cons, List.filter_cons,
        filter_orderedInsert_score q a l]
      by_cases haq : a.priority_score = q
      · have hbq : ¬ (b.priority_score = q) := by
          intro hbq
          refine hr ?_
          unfold priorityGE
          rw [hbq, haq]
        simp [haq, hbq]
      · simp [haq]

/-- Helper for instantiating the Tenth-estimates hypothesis on the initial
weekly state. -/
theorem initTasks_tenth {tasks : List PrioritizedTask}
    (hest : ∀ t ∈ tasks, Tenth t.estimated_hours) :
    ∀ t ∈ initTasks tasks, Tenth t.remaining_hours := by
  intro t ht
  obtain ⟨t0, ht0, rfl⟩ := List.mem_map.mp ht
  exact hest t0 ht0

/-- A stable insertion sort by `priority_score` preserves the relative order
of the tasks at any fixed score: filtering the sorted list by an exact score
gives the same list as filtering the input. -/
theorem insertionSort_filter_score (q : ℚ) :
    ∀ l : List PrioritizedTask,
      (List.insertionSort priorityGE l).filter
          (fun t => decide (t.priority_score = q))
        = l.filter (fun t => decide (t.priority_score = q))
  | [] => rfl
  | a :: l => by
    rw [show List.insertionSort priorityGE (a :: l)
        = List.orderedInsert priorityGE a (List.insertionSort priorityGE l) from rfl]
    rw [filter_orderedInsert_score q a (List.insertionSort priorityGE l)]
    rw [insertionSort_filter_score q l]
    rw [List.filter_cons]
    by_cases haq : a.priority_score = q
    · simp [haq]
    · simp [haq]

/-!
## The claims
-/

/-- C1 (amended): the no-double-booking invariant holds when the
availability times are 6-minute aligned, every interval is well-formed,
same-day open intervals are disjoint, and the daily cap and the estimates
are multiples of 0.1 h — no two same-day blocks of `generateWeeklyPlan`
overlap, the ranges being computed from the output `duration` fields.  (As
stated the claim is false, `C1_counterexample`: rounding the `duration`
field up can make a block's range spill into the next block.) -/
theorem C1_no_double_booking (tasks : List PrioritizedTask)
    (availability : List Availability) (maxH : ℚ) (startDate : ℤ)
    (hta : TimesAligned availability) (hwfI : WFIntervals availability)
    (hod : OpenDisjoint availability) (hq : Tenth maxH)
    (hest : ∀ t ∈ tasks, Tenth t.estimated_hours) :
    NoDayOverlap (generateWeeklyPlan tasks availability maxH startDate) := by
  unfold generateWeeklyPlan
  exact weeklyLoop_pairwise (weeklyAvail_aligned hta) hq (weeklyAvail_wf hwfI)
    (weeklyAvail_od hod) 7 startDate (initTasks tasks) (initTasks_tenth hest)

/-- C1 witness: the amended invariant at a concrete aligned input. -/
theorem C1_no_double_booking_witness :
    (TimesAligned monAvail ∧ WFIntervals monAvail ∧ OpenDisjoint monAvail
      ∧ Tenth 6 ∧ (∀ t ∈ [wtask], Tenth t.estimated_hours))
    ∧ NoDayOverlap (generateWeeklyPlan [wtask] monAvail 6 4) := by
  have h1 : TimesAligned monAvail := by unfold TimesAligned monAvail; decide
  have h2 : WFIntervals monAvail := by unfold WFIntervals monAvail; decide
  have h3 : OpenDisjoint monAvail := by unfold OpenDisjoint monAvail; decide
  have h4 : Tenth 6 := ⟨60, by norm_num⟩
  have h5 : ∀ t ∈ [wtask], Tenth t.estimated_hours := by
    intro t ht
    rw [List.mem_singleton] at ht
    subst ht
    exact ⟨20, by norm_num [wtask]⟩
  exact ⟨⟨h1, h2, h3, h4, h5⟩,
    C1_no_double_booking [wtask] monAvail 6 4 h1 h2 h3 h4 h5⟩

/-- C2 (amended): the per-task bound holds when the availability times are
6-minute aligned, the daily cap and the estimates are multiples of 0.1 h,
the estimates are nonnegative and the task ids are pairwise distinct — for
every input task, the emitted `duration` fields carrying its id sum to at
most its `estimated_hours`.  (As stated the claim is false,
`C2_counterexample`: a 1.26-hour task is scheduled as a single block whose
rounded `duration` field reads 1.3.) -/
theorem C2_per_task_bound (tasks : List PrioritizedTask)
    (availability : List Availability) (maxH : ℚ) (startDate : ℤ)
    (hta : TimesAligned availability) (hq : Tenth maxH)
    (hest : ∀ t ∈ tasks, Tenth t.estimated_hours ∧ 0 ≤ t.estimated_hours)
    (hids : List.Pairwise (fun a b : PrioritizedTask => a.id ≠ b.id) tasks) :
    ∀ t ∈ tasks,
      taskHours t.id (generateWeeklyPlan tasks availability maxH startDate)
        ≤ t.estimated_hours := by
  intro t ht
  unfold generateWeeklyPlan
  have hh : ∀ s ∈ initTasks tasks,
      Tenth s.remaining_hours ∧ 0 ≤ s.remaining_hours := by
    intro s hs
    obtain ⟨t0, ht0, rfl⟩ := List.mem_map.mp hs
    exact hest t0 ht0
  have hp : List.Pairwise (fun a b : TaskRem => a.toTask.id ≠ b.toTask.id)
      (initTasks tasks) := by
    unfold initTasks
    exact List.pairwise_map.mpr hids
  exact weeklyLoop_taskHours (weeklyAvail_aligned hta) hq 7 startDate
    (initTasks tasks) hh hp ⟨t, t.estimated_hours⟩
    (List.mem_map.mpr ⟨t, ht, rfl⟩)

/-- C2 witness: the amended per-task bound at a concrete aligned input. -/
theorem C2_per_task_bound_witness :
    (TimesAligned monAvail ∧ Tenth 6
      ∧ (∀ t ∈ [wtask], Tenth t.estimated_hours ∧ 0 ≤ t.estimated_hours)
      ∧ List.Pairwise (fun a b : PrioritizedTask => a.id ≠ b.id) [wtask])
    ∧ ∀ t ∈ [wtask],
        taskHours t.id (generateWeeklyPlan [wtask] monAvail 6 4)
          ≤ t.estimated_hours := by
  have h1 : TimesAligned monAvail := by unfold TimesAligned monAvail; decide
  have h2 : Tenth 6 := ⟨60, by norm_num⟩
  have h3 : ∀ t ∈ [wtask], Tenth t.estimated_hours ∧ 0 ≤ t.estimated_hours := by
    intro t ht
    rw [List.mem_singleton] at ht
    subst ht
    exact ⟨⟨20, by norm_num [wtask]⟩, by norm_num [wtask]⟩
  have h4 : List.Pairwise (fun a b : PrioritizedTask => a.id ≠ b.id) [wtask] :=
    List.pairwise_singleton _ _
  exact ⟨⟨h1, h2, h3, h4⟩, C2_per_task_bound [wtask] monAvail 6 4 h1 h2 h3 h4⟩

/-- C3 (amended): the capacity bound holds when the availability times are
6-minute aligned and the daily cap is a nonnegative multiple of 0.1 h and
the estimates are multiples of 0.1 h — every day's emitted `duration` fields
sum to at most `max_hours_per_day`; and, with only `0 ≤ max_hours_per_day`,
`getAvailableTimeSlots` never returns more than `max_hours_per_day * 60`
minutes of slots for one day.  (As stated the first part is false,
`C3_counterexample`: three tasks filling the cap exactly get durations
rounded up to a 6.1-hour total.) -/
theorem C3_capacity_bound (tasks : List PrioritizedTask)
    (availability : List Availability) (maxH : ℚ) (startDate : ℤ)
    (hta : TimesAligned availability) (hq : Tenth maxH) (hmax : 0 ≤ maxH)
    (hest : ∀ t ∈ tasks, Tenth t.estimated_hours) :
    (∀ d : ℤ,
      dayHours d (generateWeeklyPlan tasks availability maxH startDate) ≤ maxH)
    ∧ ∀ date : ℤ,
        slotMinutes (getAvailableTimeSlots date availability maxH) ≤ maxH * 60 := by
  constructor
  · intro d
    unfold generateWeeklyPlan
    exact weeklyLoop_dayHours (weeklyAvail_aligned hta) hq hmax 7 startDate
      (initTasks tasks) d (initTasks_tenth hest)
  · intro date
    exact slots_minutes_le date availability maxH hmax

/-- C3 witness: the amended capacity bound at a concrete aligned input. -/
theorem C3_capacity_bound_witness :
    (TimesAligned monAvail ∧ Tenth 6 ∧ (0:ℚ) ≤ 6
      ∧ (∀ t ∈ [wtask], Tenth t.estimated_hours))
    ∧ (∀ d : ℤ, dayHours d (generateWeeklyPlan [wtask] monAvail 6 4) ≤ 6)
    ∧ ∀ date : ℤ, slotMinutes (getAvailableTimeSlots date monAvail 6) ≤ 6 * 60 := by
  have h1 : TimesAligned monAvail := by unfold TimesAligned monAvail; decide
  have h2 : Tenth 6 := ⟨60, by norm_num⟩
  have h3 : (0:ℚ) ≤ 6 := by norm_num
  have h4 : ∀ t ∈ [wtask], Tenth t.estimated_hours := by
    intro t ht
    rw [List.mem_singleton] at ht
    subst ht
    exact ⟨20, by norm_num [wtask]⟩
  obtain ⟨hc1, hc2⟩ := C3_capacity_bound [wtask] monAvail 6 4 h1 h2 h3 h4
  exact ⟨⟨h1, h2, h3, h4⟩, hc1, hc2⟩

/-- C4 (amended): `prioritize` scores every task with the claimed weight
formulas — `urgency_weight = 100` when overdue and otherwise
`clamp(100 - days * 10, 0, 100)`, `difficulty_weight = difficulty * 10`,
`hours_weight = clamp(estimated_hours * 2, 0, 100)`, each weight rounded to
2 decimals in the output fields — and stably sorts descending, but the
returned `priority_score` is the 2-decimal rounding of the *unrounded*
weight sum, not of the sum of the rounded weights.  (The claim's
sum-of-rounded-weights reading is refuted by `C4_counterexample`.) -/
theorem C4_scoring_formulas (tasks : List TaskInput) (now : ℚ) :
    prioritize tasks now
      = List.insertionSort priorityGE (tasks.map (specScoreTaskC4 now)) := by
  unfold prioritize
  congr 1
  exact List.map_congr_left (fun t _ => scoreTask_eq_specC4 now t)

/-- C5 (amended): busy-interval exclusion holds when the availability times
are 6-minute aligned and the daily cap and the estimates are multiples of
0.1 h — no weekly-plan block's `[start_time, start_time + duration)` range,
computed from the output `duration` field, meets a busy interval of the
block's weekday.  (As stated the claim is false, `C5_counterexample`: an
unaligned busy boundary makes the rounded-up `duration` field reach into
the busy interval.) -/
theorem C5_busy_exclusion (tasks : List PrioritizedTask)
    (availability : List Availability) (maxH : ℚ) (startDate : ℤ)
    (hta : TimesAligned availability) (hq : Tenth maxH)
    (hest : ∀ t ∈ tasks, Tenth t.estimated_hours) :
    ∀ a ∈ availability, a.available = false →
      ∀ b ∈ generateWeeklyPlan tasks availability maxH startDate,
        a.day = getDayName b.day → ¬ blockMeetsInterval b a := by
  intro a ha hbusy b hb hseen
  have hne : availability.isEmpty = false := by
    cases availability
    · cases ha
    · rfl
  have hgw : generateWeeklyPlan tasks availability maxH startDate
      = weeklyLoop availability maxH 7 startDate (initTasks tasks) := by
    unfold generateWeeklyPlan
    rw [hne]
    simp
  rw [hgw] at hb
  exact weeklyLoop_busy hta hq 7 startDate (initTasks tasks)
    (initTasks_tenth hest) b hb a ha hseen hbusy

/-- C5 witness: the amended exclusion at a concrete aligned input with a
busy interval. -/
theorem C5_busy_exclusion_witness :
    (TimesAligned w5avail ∧ Tenth 6 ∧ (∀ t ∈ [wtask], Tenth t.estimated_hours))
    ∧ ∀ a ∈ w5avail, a.available = false →
        ∀ b ∈ generateWeeklyPlan [wtask] w5avail 6 4,
          a.day = getDayName b.day → ¬ blockMeetsInterval b a := by
  have h1 : TimesAligned w5avail := by unfold TimesAligned w5avail; decide
  have h2 : Tenth 6 := ⟨60, by norm_num⟩
  have h3 : ∀ t ∈ [wtask], Tenth t.estimated_hours := by
    intro t ht
    rw [List.mem_singleton] at ht
    subst ht
    exact ⟨20, by norm_num [wtask]⟩
  exact ⟨⟨h1, h2, h3⟩, C5_busy_exclusion [wtask] w5avail 6 4 h1 h2 h3⟩

/-- C6: priority order under scarce capacity.  First, generally: scheduling
a concatenation hands the second batch only the slot cursors the first batch
left behind, so a lower-priority task is offered time only after every
higher-priority task has taken all it could.  Second, Scenario C concretely:
the two tasks both due in one day score 260 and 120, and on day 1 with
`max_hours_per_day = 6` the high-priority task receives one 6-hour block
(remaining 34) while the low-priority task receives nothing (remaining 5). -/
theorem C6_priority_order :
    (∀ (day : ℤ) (ts1 ts2 : List (ℕ × TaskRem)) (sps : List SlotPos),
      scheduleTasks day (ts1 ++ ts2) sps =
        ((scheduleTasks day ts1 sps).1
            ++ (scheduleTasks day ts2 (scheduleTasks day ts1 sps).2.1).1,
          (scheduleTasks day ts2 (scheduleTasks day ts1 sps).2.1).2.1,
          (scheduleTasks day ts1 sps).2.2
            ++ (scheduleTasks day ts2 (scheduleTasks day ts1 sps).2.1).2.2))
    ∧ prioritize c6tasks 0 = [c6big, c6small]
    ∧ generateDailyPlan 4 (initTasks (prioritize c6tasks 0))
        getDefaultAvailability 6
        = ([⟨"big", 4, 540, 6, none⟩], [⟨c6big, 34⟩, ⟨c6small, 5⟩]) := by
  refine ⟨scheduleTasks_append, ?_, ?_⟩
  · norm_num [prioritize, scoreTask, calculateUrgencyWeight,
      calculateDifficultyWeight, calculateHoursWeight, round2, jsRound, round_eq,
      c6tasks, c6big, c6small, List.insertionSort, List.orderedInsert, priorityGE,
      min_def, max_def]
  · norm_num [prioritize, scoreTask, calculateUrgencyWeight,
      calculateDifficultyWeight, calculateHoursWeight, round2, jsRound, round_eq,
      c6tasks, c6big, c6small, List.insertionSort, List.orderedInsert, priorityGE,
      initTasks, generateDailyPlan, getAvailableTimeSlots, getDayName,
      getDefaultAvailability, slotsLoop, processPeriod, carveBusy, overlapsPeriod,
      startLE, scheduleTasks, scheduleTask, applyRemUpdates, round1, List.enum,
      List.enumFrom, List.lookup, min_def, max_def]
    rfl

/-- C7 (amended): with Scenario B's availability (Monday 09:00–17:00 open,
12:00–13:00 busy) and any daily cap of at least 7 hours,
`getAvailableTimeSlots` returns exactly the two ranges 09:00–12:00 and
13:00–17:00.  (With the system's default cap of 6 hours the claim as stated
is false, `C7_counterexample`: the second slot is truncated at 16:00.) -/
theorem C7_split_around_busy (q : ℚ) (h7 : 7 ≤ q) :
    getAvailableTimeSlots 4 c7avail q = [⟨540, 720⟩, ⟨780, 1020⟩] := by
  have hc1 : (q * 60 ≤ (0:ℚ)) = False := eq_false (by linarith)
  have hm1 : min (180:ℚ) (q * 60) = 180 := min_eq_left (by linarith)
  have hc2 : ((180:ℚ) < q * 60) = True := eq_true (by linarith)
  have hm2 : min (240:ℚ) (q * 60 - 180) = 240 := min_eq_left (by linarith)
  norm_num [getAvailableTimeSlots, getDayName, slotsLoop, processPeriod,
    carveBusy, overlapsPeriod, startLE, List.insertionSort, List.orderedInsert,
    c7avail, hc1, hm1, hc2, hm2]

/-- C7 witness: the amended slot split at the concrete cap 8. -/
theorem C7_split_around_busy_witness :
    (7:ℚ) ≤ 8 ∧ getAvailableTimeSlots 4 c7avail 8 = [⟨540, 720⟩, ⟨780, 1020⟩] :=
  ⟨by norm_num, C7_split_around_busy 8 (by norm_num)⟩

/-- C8: `prioritize` returns the tasks sorted descending by
`priority_score`, and the sort is stable — for any fixed score value, the
tasks holding exactly that score appear in their original input order
(filtering the output by the score equals filtering the scored input). -/
theorem C8_sorted_stable (tasks : List TaskInput) (now : ℚ) :
    List.Sorted priorityGE (prioritize tasks now)
    ∧ ∀ q : ℚ,
      (prioritize tasks now).filter (fun t => decide (t.priority_score = q))
        = (tasks.map (scoreTask now)).filter
            (fun t => decide (t.priority_score = q)) := by
  constructor
  · exact List.sorted_insertionSort priorityGE (tasks.map (scoreTask now))
  · intro q
    exact insertionSort_filter_score q (tasks.map (scoreTask now))

/-- C9: every block of `generateWeeklyPlan` falls on one of the 7 days
starting at `start_date`, and if after some relative day `k` every task's
remaining hours are ≤ 0 then no block falls on a strictly later day. -/
theorem C9_horizon_early_stop (tasks : List PrioritizedTask)
    (availability : List Availability) (maxH : ℚ) (startDate : ℤ) :
    (∀ b ∈ generateWeeklyPlan tasks availability maxH startDate,
      ∃ k : ℕ, k < 7 ∧ b.day = startDate + k)
    ∧ ∀ k : ℕ,
      (∀ t ∈ stateAfter
          (if availability.isEmpty then getDefaultAvailability else availability)
          maxH (k + 1) startDate (initTasks tasks),
        t.remaining_hours ≤ 0) →
      ∀ b ∈ generateWeeklyPlan tasks availability maxH startDate,
        b.day ≤ startDate + k := by
  constructor
  · intro b hb
    exact weeklyLoop_day_range
      (if availability.isEmpty then getDefaultAvailability else availability)
      maxH 7 startDate (initTasks tasks) b hb
  · intro k hdone b hb
    exact weeklyLoop_early_stop
      (if availability.isEmpty then getDefaultAvailability else availability)
      maxH 7 k startDate (initTasks tasks) hdone b hb

/-- C10: when at least one availability interval matches the date's weekday
but every matching interval is busy, `getAvailableTimeSlots` returns no
slots (the built-in defaults apply only when nothing matches), and the daily
planner emits no blocks and leaves the tasks untouched. -/
theorem C10_matching_busy_day (date : ℤ) (availability : List Availability)
    (maxH : ℚ) (tasks : List TaskRem)
    (hmatch : ∃ a ∈ availability, a.day = getDayName date)
    (hbusy : ∀ a ∈ availability, a.day = getDayName date → a.available = false) :
    getAvailableTimeSlots date availability maxH = []
    ∧ generateDailyPlan date tasks availability maxH = ([], tasks) := by
  have hs := slots_all_busy date availability maxH hmatch hbusy
  refine ⟨hs, generateDailyPlan_empty ?_⟩
  rw [hs]
  rfl

/-- C10 witness: a Monday whose only declared interval is busy yields no
slots and no blocks. -/
theorem C10_matching_busy_day_witness :
    ((∃ a ∈ w10avail, a.day = getDayName 4)
      ∧ (∀ a ∈ w10avail, a.day = getDayName 4 → a.available = false))
    ∧ getAvailableTimeSlots 4 w10avail 6 = []
    ∧ generateDailyPlan 4 [] w10avail 6 = ([], []) := by
  have h1 : ∃ a ∈ w10avail, a.day = getDayName 4 := by
    refine ⟨⟨.monday, 540, 600, false⟩, ?_, ?_⟩
    · rw [show w10avail = [⟨.monday, 540, 600, false⟩] from rfl]
      exact List.mem_singleton.mpr rfl
    · decide
  have h2 : ∀ a ∈ w10avail, a.day = getDayName 4 → a.available = false := by
    intro a ha _
    rw [show w10avail = [⟨.monday, 540, 600, false⟩] from rfl] at ha
    rw [List.mem_singleton] at ha
    subst ha
    rfl
  obtain ⟨hc1, hc2⟩ := C10_matching_busy_day 4 w10avail 6 [] h1 h2
  exact ⟨⟨h1, h2⟩, hc1, hc2⟩

end SmartScotty
